import Mathlib

/-!
Verification of `src/api/fix-duplicates.py` (OpenAPI duplicate-schema fixer).

Shallow embedding of the script: a batch transformation over a JSON-like
document tree that

* detects dotted/plain duplicate definition names (`find_duplicate_schemas`),
* counts references by serializing the document and counting substrings
  (`count_references`),
* compares schemas ignoring `description` fields (`compare_schemas`),
* rewrites `$ref` values from a retired name to a replacement
  (`fix_schema_references`),
* prunes the retired definition (inside the per-pair loop of
  `fix_openapi_duplicates`), and
* collapses array-valued `type` fields to a single value (`fix_type_arrays`).

Python dicts are modelled as association lists `List (String × Json)` in
insertion order: documents produced by `json.load` have unique keys, and a
Python dict preserves insertion order, which the association list mirrors.
Python's `==` on dicts ignores key order; every operation of this program
preserves key order, so the order-sensitive structural equality of the
embedding agrees with Python's on the values the program manipulates.
Fallible operations (Python exceptions: `IndexError` from `value[0]`,
attribute/type errors on malformed documents) are modelled with
`Except String`.  The lines printed by the per-pair processing loop are
modelled as an explicit log of strings; prints outside that loop (banner and
progress lines of the orchestrator, the per-fix lines of `fix_type_arrays`)
carry no per-pair information and are not modelled.
-/

/-- A JSON value, as produced by Python's `json.load`: `None`, booleans,
numbers (integers suffice for this development), strings, lists, and dicts
(association lists in insertion order). -/
inductive Json where
  | null
  | bool (b : Bool)
  | num (n : Int)
  | str (s : String)
  | arr (elems : List Json)
  | obj (members : List (String × Json))

mutual
/-- Structural (Boolean) equality of JSON values. -/
def beqJ : Json → Json → Bool
  | .null, .null => true
  | .bool a, .bool b => a == b
  | .num a, .num b => a == b
  | .str a, .str b => a == b
  | .arr xs, .arr ys => beqJList xs ys
  | .obj xs, .obj ys => beqJEntries xs ys
  | _, _ => false
def beqJList : List Json → List Json → Bool
  | [], [] => true
  | x :: xs, y :: ys => beqJ x y && beqJList xs ys
  | _, _ => false
def beqJEntries : List (String × Json) → List (String × Json) → Bool
  | [], [] => true
  | (k, v) :: xs, (l, w) :: ys => k == l && beqJ v w && beqJEntries xs ys
  | _, _ => false
end

mutual
theorem beqJ_refl : ∀ a : Json, beqJ a a = true
  | .null => rfl
  | .bool b => by simp [beqJ]
  | .num n => by simp [beqJ]
  | .str s => by simp [beqJ]
  | .arr xs => by simp [beqJ, beqJList_refl xs]
  | .obj xs => by simp [beqJ, beqJEntries_refl xs]
theorem beqJList_refl : ∀ xs : List Json, beqJList xs xs = true
  | [] => rfl
  | x :: xs => by simp [beqJList, beqJ_refl x, beqJList_refl xs]
theorem beqJEntries_refl : ∀ xs : List (String × Json), beqJEntries xs xs = true
  | [] => rfl
  | (k, v) :: xs => by simp [beqJEntries, beqJ_refl v, beqJEntries_refl xs]
end

mutual
theorem eq_of_beqJ : ∀ {a b : Json}, beqJ a b = true → a = b
  | .null, .null, _ => rfl
  | .bool _, .bool _, h => by simp [beqJ] at h; rw [h]
  | .num _, .num _, h => by simp [beqJ] at h; rw [h]
  | .str _, .str _, h => by simp [beqJ] at h; rw [h]
  | .arr _, .arr _, h => by
      simp only [beqJ] at h
      rw [eq_of_beqJList h]
  | .obj _, .obj _, h => by
      simp only [beqJ] at h
      rw [eq_of_beqJEntries h]
  | .null, .bool _, h => by simp [beqJ] at h
  | .null, .num _, h => by simp [beqJ] at h
  | .null, .str _, h => by simp [beqJ] at h
  | .null, .arr _, h => by simp [beqJ] at h
  | .null, .obj _, h => by simp [beqJ] at h
  | .bool _, .null, h => by simp [beqJ] at h
  | .bool _, .num _, h => by simp [beqJ] at h
  | .bool _, .str _, h => by simp [beqJ] at h
  | .bool _, .arr _, h => by simp [beqJ] at h
  | .bool _, .obj _, h => by simp [beqJ] at h
  | .num _, .null, h => by simp [beqJ] at h
  | .num _, .bool _, h => by simp [beqJ] at h
  | .num _, .str _, h => by simp [beqJ] at h
  | .num _, .arr _, h => by simp [beqJ] at h
  | .num _, .obj _, h => by simp [beqJ] at h
  | .str _, .null, h => by simp [beqJ] at h
  | .str _, .bool _, h => by simp [beqJ] at h
  | .str _, .num _, h => by simp [beqJ] at h
  | .str _, .arr _, h => by simp [beqJ] at h
  | .str _, .obj _, h => by simp [beqJ] at h
  | .arr _, .null, h => by simp [beqJ] at h
  | .arr _, .bool _, h => by simp [beqJ] at h
  | .arr _, .num _, h => by simp [beqJ] at h
  | .arr _, .str _, h => by simp [beqJ] at h
  | .arr _, .obj _, h => by simp [beqJ] at h
  | .obj _, .null, h => by simp [beqJ] at h
  | .obj _, .bool _, h => by simp [beqJ] at h
  | .obj _, .num _, h => by simp [beqJ] at h
  | .obj _, .str _, h => by simp [beqJ] at h
  | .obj _, .arr _, h => by simp [beqJ] at h
theorem eq_of_beqJList : ∀ {xs ys : List Json}, beqJList xs ys = true → xs = ys
  | [], [], _ => rfl
  | _ :: _, _ :: _, h => by
      simp only [beqJList, Bool.and_eq_true] at h
      rw [eq_of_beqJ h.1, eq_of_beqJList h.2]
  | [], _ :: _, h => by simp [beqJList] at h
  | _ :: _, [], h => by simp [beqJList] at h
theorem eq_of_beqJEntries :
    ∀ {xs ys : List (String × Json)}, beqJEntries xs ys = true → xs = ys
  | [], [], _ => rfl
  | (k, v) :: _, (l, w) :: _, h => by
      simp only [beqJEntries, Bool.and_eq_true] at h
      obtain ⟨⟨h1, h2⟩, h3⟩ := h
      rw [eq_of_beqJ h2, eq_of_beqJEntries h3, show k = l from by simpa using h1]
  | [], _ :: _, h => by simp [beqJEntries] at h
  | _ :: _, [], h => by simp [beqJEntries] at h
end

instance : DecidableEq Json := fun a b =>
  if h : beqJ a b = true then .isTrue (eq_of_beqJ h)
  else .isFalse (fun he => h (he ▸ beqJ_refl a))

/-- First value stored under key `k` (Python `d[k]` / `d.get(k)`). -/
def lookupKey (kvs : List (String × Json)) (k : String) : Option Json :=
  match kvs with
  | [] => none
  | (k', v) :: rest => if k' = k then some v else lookupKey rest k

/-- The keys of a dict, in insertion order (Python `d.keys()`). -/
def keysOf (kvs : List (String × Json)) : List String :=
  kvs.map Prod.fst

/-- Replace the value stored under key `k` (Python `d[k] = v` on an existing
key: the entry keeps its position, all other entries are unchanged). -/
def setKey : List (String × Json) → String → Json → List (String × Json)
  | [], _, _ => []
  | (k', w) :: rest, k, v => (if k' = k then (k, v) else (k', w)) :: setKey rest k v

/-- Python `name.replace('.', '')`: the string with every dot removed. -/
def removeDots (s : String) : String :=
  String.mk (s.data.filter (fun c => c ≠ '.'))

/-- Python `'.' in name` for the one-character needle `'.'`. -/
def hasDot (s : String) : Bool :=
  s.data.any (fun c => c = '.')

/-- A scalar (non-container) value: anything but a dict or a list. -/
def Json.isScalar : Json → Bool
  | .obj _ => false
  | .arr _ => false
  | _ => true

/-- Python `isinstance(value, list)`. -/
def Json.isArr : Json → Bool
  | .arr _ => true
  | _ => false

/-- The elements of a list value (empty for non-lists). -/
def Json.arrElems : Json → List Json
  | .arr xs => xs
  | _ => []

/-- The reference string `#/definitions/<name>`. -/
def refStr (name : String) : String :=
  "#/definitions/" ++ name

/-- `find_duplicate_schemas` (fix-duplicates.py:17): for each key of
`definitions` containing a dot whose dot-stripped form is also a key, emit the
pair `(name, no_dot_name)`, in key iteration order.  The Python function only
reads its argument (no side effects); the embedding is pure by construction. -/
def find_duplicate_schemas (definitions : List (String × Json)) :
    List (String × String) :=
  definitions.filterMap
    (fun kv =>
      if hasDot kv.1 ∧ (keysOf definitions).contains (removeDots kv.1) then
        some (kv.1, removeDots kv.1)
      else none)

/-- Hex digit (lowercase), as used by Python's `json.dumps` unicode escapes. -/
def hexDigit (n : Nat) : Char :=
  if n < 10 then Char.ofNat ('0'.toNat + n) else Char.ofNat ('a'.toNat + (n - 10))

/-- Four lowercase hex digits. -/
def hex4 (n : Nat) : String :=
  String.mk [hexDigit (n / 4096 % 16), hexDigit (n / 256 % 16),
             hexDigit (n / 16 % 16), hexDigit (n % 16)]

/-- One character of a JSON string as serialized by Python's `json.dumps` with
its defaults (`ensure_ascii=True`): the short escapes, `\u00xx` for other
control characters, printable ASCII verbatim, and `\uxxxx` (with surrogate
pairs beyond the BMP) for everything else. -/
def escapeChar (c : Char) : String :=
  if c = '"' then "\\\""
  else if c = '\\' then "\\\\"
  else if c = '\n' then "\\n"
  else if c = '\r' then "\\r"
  else if c = '\t' then "\\t"
  else if c = '\x08' then "\\b"
  else if c = '\x0c' then "\\f"
  else if c.toNat < 0x20 then "\\u" ++ hex4 c.toNat
  else if c.toNat < 0x7f then String.mk [c]
  else if c.toNat ≤ 0xffff then "\\u" ++ hex4 c.toNat
  else
    "\\u" ++ hex4 (0xd800 + (c.toNat - 0x10000) / 0x400) ++
    "\\u" ++ hex4 (0xdc00 + (c.toNat - 0x10000) % 0x400)

/-- A JSON string literal as serialized by `json.dumps`. -/
def encodeStr (s : String) : String :=
  "\"" ++ String.join (s.data.map escapeChar) ++ "\""

mutual
/-- `json.dumps(spec)` with default arguments: separators `", "` and `": "`,
no indentation (as called by `count_references`, fix-duplicates.py:32). -/
def dumps : Json → String
  | .null => "null"
  | .bool true => "true"
  | .bool false => "false"
  | .num n => toString n
  | .str s => encodeStr s
  | .arr xs => "[" ++ dumpsList xs ++ "]"
  | .obj kvs => "\x7b" ++ dumpsEntries kvs ++ "\x7d"
def dumpsList : List Json → String
  | [] => ""
  | [x] => dumps x
  | x :: y :: rest => dumps x ++ ", " ++ dumpsList (y :: rest)
def dumpsEntries : List (String × Json) → String
  | [] => ""
  | [(k, v)] => encodeStr k ++ ": " ++ dumps v
  | (k, v) :: e :: rest => encodeStr k ++ ": " ++ dumps v ++ ", " ++ dumpsEntries (e :: rest)
end

/-- Fuel-driven scan for `str.count`: counts non-overlapping occurrences of
`pat` left to right.  The fuel starts at the length of the text, which bounds
the number of scanning steps, so the recursion is structural. -/
def countSubGo : Nat → List Char → List Char → Nat
  | 0, _, _ => 0
  | _ + 1, [], _ => 0
  | fuel + 1, c :: rest, pat =>
      if pat.isPrefixOf (c :: rest) then
        1 + countSubGo fuel ((c :: rest).drop pat.length) pat
      else countSubGo fuel rest pat

/-- Python `text.count(pat)`: non-overlapping occurrences of `pat` in `text`,
scanning left to right; the empty pattern counts `len(text) + 1` times. -/
def countSub (text pat : String) : Nat :=
  if pat.data.isEmpty then text.data.length + 1
  else countSubGo text.data.length text.data pat.data

/-- `count_references` (fix-duplicates.py:30): serialize the whole spec with
`json.dumps` and count occurrences of the substring `#/definitions/<name>`. -/
def count_references (spec : Json) (schema_name : String) : Nat :=
  countSub (dumps spec) (refStr schema_name)

mutual
/-- `normalize_schema`, the inner helper of `compare_schemas`
(fix-duplicates.py:40): recursively drop every `description` key of every
dict; lists are normalized elementwise; scalars pass through. -/
def normalize_schema : Json → Json
  | .obj kvs => .obj (normalizeEntries kvs)
  | .arr xs => .arr (normalizeList xs)
  | v => v
def normalizeEntries : List (String × Json) → List (String × Json)
  | [] => []
  | (k, v) :: rest =>
      if k = "description" then normalizeEntries rest
      else (k, normalize_schema v) :: normalizeEntries rest
def normalizeList : List Json → List Json
  | [] => []
  | x :: xs => normalize_schema x :: normalizeList xs
end

/-- `compare_schemas` (fix-duplicates.py:37): equality of the two
`description`-stripped schemas.  (Python's `==` additionally ignores dict key
order; `normalize_schema` preserves key order, so on documents with a common
key order — in particular any schema compared against a reordering-free copy
of itself — the two notions agree.) -/
def compare_schemas (schema1 schema2 : Json) : Bool :=
  normalize_schema schema1 == normalize_schema schema2

/-- Python `s.strip()` (whitespace strip), as used on description values. -/
def pyStrip (s : String) : String :=
  s.trim

mutual
/-- `count_descriptions`, the inner helper of `choose_better_schema`
(fix-duplicates.py:78): one for each dict that has a `description` key whose
stripped string value is non-empty, summed recursively over all dict values
and list elements.  `schema['description'].strip()` raises `AttributeError`
when the value is not a string, hence the `Except`. -/
def count_descriptions : Json → Except String Nat
  | .obj kvs => do
      let base ←
        match lookupKey kvs "description" with
        | some (.str s) => Except.ok (if (pyStrip s).isEmpty then 0 else 1)
        | some _ => Except.error "AttributeError: strip"
        | none => Except.ok 0
      let rest ← countDescEntries kvs
      Except.ok (base + rest)
  | .arr xs => countDescList xs
  | _ => .ok 0
def countDescEntries : List (String × Json) → Except String Nat
  | [] => .ok 0
  | (_, v) :: rest => do
      let a ← count_descriptions v
      let b ← countDescEntries rest
      Except.ok (a + b)
def countDescList : List Json → Except String Nat
  | [] => .ok 0
  | x :: xs => do
      let a ← count_descriptions x
      let b ← countDescList xs
      Except.ok (a + b)
end

/-- `choose_better_schema` (fix-duplicates.py:71): prefer the schema with more
descriptions, the non-dotted one on ties.  Defined in the source but never
called by `fix_openapi_duplicates`; embedded here for completeness. -/
def choose_better_schema (dotted_schema no_dot_schema : Json)
    (dotted_name no_dot_name : String) : Except String (String × Json) := do
  let dotted_descriptions ← count_descriptions dotted_schema
  let no_dot_descriptions ← count_descriptions no_dot_schema
  if no_dot_descriptions ≥ dotted_descriptions then
    Except.ok (no_dot_name, no_dot_schema)
  else
    Except.ok (dotted_name, dotted_schema)

mutual
/-- `fix_schema_references` (fix-duplicates.py:55): rebuild the tree; a dict
entry whose key is `$ref` and whose value is exactly the string
`#/definitions/<old_ref>` gets the value `#/definitions/<new_ref>`; every
other entry keeps its key and recurses into its value; lists recurse
elementwise; scalars pass through. -/
def fix_schema_references : Json → String → String → Json
  | .obj kvs, o, n => .obj (fixRefsEntries kvs o n)
  | .arr xs, o, n => .arr (fixRefsList xs o n)
  | v, _, _ => v
def fixRefsEntries : List (String × Json) → String → String → List (String × Json)
  | [], _, _ => []
  | (k, v) :: rest, o, n =>
      (if k = "$ref" ∧ v = .str (refStr o) then (k, Json.str (refStr n))
       else (k, fix_schema_references v o n)) :: fixRefsEntries rest o n
def fixRefsList : List Json → String → String → List Json
  | [], _, _ => []
  | x :: xs, o, n => fix_schema_references x o n :: fixRefsList xs o n
end

/-- The replacement for an array-valued `type` (fix-duplicates.py:155-163):
`"string"` if present, else `"number"`, else `"integer"`, else the first
element — `value[0]`, which raises `IndexError` on an empty list. -/
def pickType (l : List Json) : Except String Json :=
  if l.contains (Json.str "string") then .ok (Json.str "string")
  else if l.contains (Json.str "number") then .ok (Json.str "number")
  else if l.contains (Json.str "integer") then .ok (Json.str "integer")
  else
    match l with
    | [] => .error "IndexError: list index out of range"
    | x :: _ => .ok x

mutual
/-- `fix_type_arrays` (fix-duplicates.py:149): rebuild the tree, replacing the
value of every dict entry `type ↦ list` by `pickType` of that list (without
recursing into the list), recursing everywhere else; also returns the number
of replacements (the `type_array_fixes` counter). -/
def fix_type_arrays : Json → Except String (Json × Nat)
  | .obj kvs => do
      let (kvs', c) ← fixTypeEntries kvs
      Except.ok (Json.obj kvs', c)
  | .arr xs => do
      let (xs', c) ← fixTypeList xs
      Except.ok (Json.arr xs', c)
  | v => .ok (v, 0)
def fixTypeEntries : List (String × Json) → Except String (List (String × Json) × Nat)
  | [] => .ok ([], 0)
  | (k, v) :: rest =>
      if k = "type" ∧ v.isArr = true then do
        let t ← pickType v.arrElems
        let (rest', c) ← fixTypeEntries rest
        Except.ok (("type", t) :: rest', c + 1)
      else do
        let (v', c1) ← fix_type_arrays v
        let (rest', c2) ← fixTypeEntries rest
        Except.ok ((k, v') :: rest', c1 + c2)
def fixTypeList : List Json → Except String (List Json × Nat)
  | [] => .ok ([], 0)
  | x :: xs => do
      let (x', c1) ← fix_type_arrays x
      let (xs', c2) ← fixTypeList xs
      Except.ok (x' :: xs', c1 + c2)
end

/-- `definitions = spec.get('definitions', {})` (fix-duplicates.py:110)
followed by the `definitions.keys()` access of `find_duplicate_schemas`: a
missing `definitions` key degrades to the empty dict; a non-dict root or a
non-dict `definitions` value raises (`AttributeError`). -/
def getDefinitions (spec : Json) : Except String (List (String × Json)) :=
  match spec with
  | .obj kvs =>
      match lookupKey kvs "definitions" with
      | some (.obj defs) => .ok defs
      | some _ => .error "AttributeError: keys"
      | none => .ok []
  | _ => .error "AttributeError: get"

/-- The three lines printed at the top of each loop iteration
(fix-duplicates.py:124-131): the pair being processed and the two
`count_references` counts, taken on the document before rewriting. -/
def pairLogHead (spec : Json) (d p : String) : List String :=
  ["Processing: " ++ d ++ " vs " ++ p,
   "  " ++ d ++ ": " ++ toString (count_references spec d) ++ " references",
   "  " ++ p ++ ": " ++ toString (count_references spec p) ++ " references"]

/-- One iteration of the duplicate loop (fix-duplicates.py:123-143): print the
pair and the two `count_references` counts, rewrite all references from the
dotted to the plain name, then delete the dotted definition if it is still
present (warning otherwise).  The returned list holds the printed lines.  A
document in which `spec['definitions']` is not a dict cannot reach this loop
(`getDefinitions` rejects it before any pair is produced) and is modelled as
an error. -/
def processPair (spec : Json) (pr : String × String) : Except String (Json × List String) :=
  match fix_schema_references spec pr.1 pr.2 with
  | .obj kvs =>
      match lookupKey kvs "definitions" with
      | some (.obj defs) =>
          if (keysOf defs).contains pr.1 then
            .ok (Json.obj (setKey kvs "definitions"
                   (Json.obj (defs.filter (fun kv => kv.1 ≠ pr.1)))),
                 pairLogHead spec pr.1 pr.2 ++
                   ["  Removed " ++ pr.1 ++ ", keeping " ++ pr.2,
                    "  Updated all references from " ++ pr.1 ++ " to " ++ pr.2])
          else
            .ok (.obj kvs,
                 pairLogHead spec pr.1 pr.2 ++
                   ["  Warning: " ++ pr.1 ++ " not found in definitions!"])
      | _ => .error "TypeError: definitions is not a dict"
  | _ => .error "TypeError: document root is not a dict"

/-- The duplicate loop (fix-duplicates.py:123): process each detected pair in
order, threading the document and concatenating the printed lines. -/
def processLoop (spec : Json) : List (String × String) → Except String (Json × List String)
  | [] => .ok (spec, [])
  | pr :: rest => do
      let (s1, l1) ← processPair spec pr
      let (s2, l2) ← processLoop s1 rest
      Except.ok (s2, l1 ++ l2)

/-- `fix_openapi_duplicates` (fix-duplicates.py:103), file I/O stripped: the
in-memory transformation from the loaded document to the document that is
serialized, together with the loop's printed lines and the final
`type_array_fixes` count.  Any Python exception along the way surfaces as
`Except.error` (caught at top level by the `__main__` wrapper, which exits
with status 1 without writing the output file). -/
def fix_openapi_duplicates (spec : Json) : Except String (Json × List String × Nat) := do
  let defs ← getDefinitions spec
  let (s1, log) ← processLoop spec (find_duplicate_schemas defs)
  let (s2, c) ← fix_type_arrays s1
  Except.ok (s2, log, c)

/-- The Duplicate Detector as worded in the spec (§4.1): the keys that
contain a dot and whose dot-stripped form is also a key, in key order, each
paired with its dot-stripped form. -/
def duplicateDetectorSpec (definitions : List (String × Json)) :
    List (String × String) :=
  ((keysOf definitions).filter
      (fun n => hasDot n && (keysOf definitions).contains (removeDots n))).map
    (fun n => (n, removeDots n))

mutual
/-- The structural reference count of the spec (§9): the number of dict
entries, anywhere in the document, whose key is `$ref` and whose value is
exactly the string `#/definitions/<name>`. -/
def countExactRefs : Json → String → Nat
  | .obj kvs, name => countExactRefsEntries kvs name
  | .arr xs, name => countExactRefsList xs name
  | _, _ => 0
def countExactRefsEntries : List (String × Json) → String → Nat
  | [], _ => 0
  | (k, v) :: rest, name =>
      (if k = "$ref" ∧ v = .str (refStr name) then 1 else 0) +
        countExactRefs v name + countExactRefsEntries rest name
def countExactRefsList : List Json → String → Nat
  | [], _ => 0
  | x :: xs, name => countExactRefs x name + countExactRefsList xs name
end

/-- A well-formed `type` value (the shape assumed by the spec, §4.4, plus the
non-emptiness totality precondition): if it is a list, it is a non-empty list
of scalars. -/
def typeValueOK (v : Json) : Bool :=
  !v.isArr || (!v.arrElems.isEmpty && v.arrElems.all Json.isScalar)

mutual
/-- Every array-valued `type` field anywhere in the document is a non-empty
array of scalars. -/
def GoodTypes : Json → Bool
  | .obj kvs => goodTypesEntries kvs
  | .arr xs => goodTypesList xs
  | _ => true
def goodTypesEntries : List (String × Json) → Bool
  | [] => true
  | (k, v) :: rest =>
      (!(k == "type") || typeValueOK v) && GoodTypes v && goodTypesEntries rest
def goodTypesList : List Json → Bool
  | [] => true
  | x :: xs => GoodTypes x && goodTypesList xs
end

mutual
/-- Some dict entry anywhere in the document has key `type` and a list
value. -/
def hasTypeList : Json → Bool
  | .obj kvs => hasTypeListEntries kvs
  | .arr xs => hasTypeListList xs
  | _ => false
def hasTypeListEntries : List (String × Json) → Bool
  | [] => false
  | (k, v) :: rest =>
      (k == "type" && v.isArr) || hasTypeList v || hasTypeListEntries rest
def hasTypeListList : List Json → Bool
  | [] => false
  | x :: xs => hasTypeList x || hasTypeListList xs
end

mutual
/-- The recursive walk of `fix_type_arrays` reaches a dict entry
`type ↦ []` (walk order: a list-valued `type` entry is replaced without
visiting its elements, so empty `type` lists nested inside another list-valued
`type` do not count). -/
def hitsEmptyTypeArray : Json → Bool
  | .obj kvs => hitsEmptyEntries kvs
  | .arr xs => hitsEmptyList xs
  | _ => false
def hitsEmptyEntries : List (String × Json) → Bool
  | [] => false
  | (k, v) :: rest =>
      (if k = "type" ∧ v.isArr = true then v.arrElems.isEmpty
       else hitsEmptyTypeArray v) || hitsEmptyEntries rest
def hitsEmptyList : List Json → Bool
  | [] => false
  | x :: xs => hitsEmptyTypeArray x || hitsEmptyList xs
end

/-- The Type Normalizer's choice as worded in the spec (§4.4): `"string"` if
present, else `"number"` if present, else `"integer"` if present, else the
first element of the sequence. -/
def pickTypeSpec (l : List Json) : Json :=
  if l.contains (Json.str "string") then Json.str "string"
  else if l.contains (Json.str "number") then Json.str "number"
  else if l.contains (Json.str "integer") then Json.str "integer"
  else l.headD Json.null

mutual
/-- The Type Normalizer as worded in the spec (§4.4): recursively walk the
document; each dict entry `type ↦ sequence` is replaced by the single value
chosen by `pickTypeSpec`; all other `type` values (already scalar) are left
untouched; everything else is preserved structurally. -/
def typeNormalizerSpec : Json → Json
  | .obj kvs => .obj (typeNormEntries kvs)
  | .arr xs => .arr (typeNormList xs)
  | v => v
def typeNormEntries : List (String × Json) → List (String × Json)
  | [] => []
  | (k, v) :: rest =>
      if k = "type" ∧ v.isArr = true then
        ("type", pickTypeSpec v.arrElems) :: typeNormEntries rest
      else (k, typeNormalizerSpec v) :: typeNormEntries rest
def typeNormList : List Json → List Json
  | [] => []
  | x :: xs => typeNormalizerSpec x :: typeNormList xs
end

mutual
/-- The number of dict entries `type ↦ sequence` replaced by the Type
Normalizer (counted in walk order: the elements of a replaced `type` sequence
are dropped without being visited). -/
def countTypeArrays : Json → Nat
  | .obj kvs => countTypeEntries kvs
  | .arr xs => countTypeList xs
  | _ => 0
def countTypeEntries : List (String × Json) → Nat
  | [] => 0
  | (k, v) :: rest =>
      (if k = "type" ∧ v.isArr = true then 1 else countTypeArrays v) +
        countTypeEntries rest
def countTypeList : List Json → Nat
  | [] => 0
  | x :: xs => countTypeArrays x + countTypeList xs
end

/-- One step of a path into the document: a dict key or a list index. -/
inductive PathElem where
  | key (k : String)
  | idx (i : Nat)
deriving DecidableEq

/-- The child of a node selected by one path step. -/
def Json.childAt : Json → PathElem → Option Json
  | .obj kvs, .key k => lookupKey kvs k
  | .arr xs, .idx i => xs[i]?
  | _, _ => none

/-- The node a path leads to, if any. -/
def getPath (j : Json) : List PathElem → Option Json
  | [] => some j
  | e :: p => (j.childAt e).bind (fun c => getPath c p)

/-- The one-level shape of a node: the ordered key list of a dict, the length
of a list, or `scalar`. -/
inductive TopShape where
  | objKeys (ks : List String)
  | arrLen (n : Nat)
  | scalar
deriving DecidableEq

/-- The one-level shape of a node. -/
def topShape : Json → TopShape
  | .obj kvs => .objKeys (keysOf kvs)
  | .arr xs => .arrLen xs.length
  | _ => .scalar

/-- The `definitions` entry of the document root, when the root is a dict and
the entry is a dict. -/
def defsList (j : Json) : Option (List (String × Json)) :=
  match j with
  | .obj kvs =>
      match lookupKey kvs "definitions" with
      | some (.obj defs) => some defs
      | _ => none
  | _ => none

/-- The keys of the `definitions` dict (empty if there is none). -/
def defsKeys (j : Json) : List String :=
  match defsList j with
  | some defs => keysOf defs
  | none => []

mutual
/-- Two schemas that are identical except for the values stored under
`description` keys, at any depth, including inside nested sequences: same
constructors, same key lists in the same order, same sequence lengths, and
equal values everywhere except directly under a `description` key, where the
two values are unconstrained. -/
inductive EqUpToDescription : Json → Json → Prop
  | null : EqUpToDescription .null .null
  | bool (b : Bool) : EqUpToDescription (.bool b) (.bool b)
  | num (n : Int) : EqUpToDescription (.num n) (.num n)
  | str (s : String) : EqUpToDescription (.str s) (.str s)
  | arr {xs ys : List Json} : EqListUpToDescription xs ys →
      EqUpToDescription (.arr xs) (.arr ys)
  | obj {kvs lws : List (String × Json)} : EqEntriesUpToDescription kvs lws →
      EqUpToDescription (.obj kvs) (.obj lws)
inductive EqListUpToDescription : List Json → List Json → Prop
  | nil : EqListUpToDescription [] []
  | cons {x y : Json} {xs ys : List Json} : EqUpToDescription x y →
      EqListUpToDescription xs ys → EqListUpToDescription (x :: xs) (y :: ys)
inductive EqEntriesUpToDescription :
    List (String × Json) → List (String × Json) → Prop
  | nil : EqEntriesUpToDescription [] []
  | consDesc {v w : Json} {kvs lws : List (String × Json)} :
      EqEntriesUpToDescription kvs lws →
      EqEntriesUpToDescription (("description", v) :: kvs)
        (("description", w) :: lws)
  | cons {k : String} {v w : Json} {kvs lws : List (String × Json)} :
      k ≠ "description" → EqUpToDescription v w →
      EqEntriesUpToDescription kvs lws →
      EqEntriesUpToDescription ((k, v) :: kvs) ((k, w) :: lws)
end

/-- Example: a document whose dotted definition `A.B` is referenced from a
path item; `AB` is the plain duplicate. -/
def exDoc : Json :=
  Json.obj
    [("definitions", Json.obj [("A.B", Json.obj []), ("AB", Json.obj [])]),
     ("paths", Json.obj [("$ref", Json.str "#/definitions/A.B")])]

/-- Example: the dotted definition refers to itself, so the only reference to
it lives inside the subtree that the pruner deletes. -/
def exSelfRef : Json :=
  Json.obj
    [("definitions",
      Json.obj
        [("A.B", Json.obj [("$ref", Json.str "#/definitions/A.B")]),
         ("AB", Json.obj [])])]

/-- Example: `definitions` contains `Foo` and `FooBar`, and one reference to
`FooBar` — whose text contains `#/definitions/Foo` as a proper prefix. -/
def exPrefix : Json :=
  Json.obj
    [("definitions", Json.obj [("Foo", Json.obj []), ("FooBar", Json.obj [])]),
     ("paths", Json.obj [("p", Json.obj [("$ref", Json.str "#/definitions/FooBar")])])]

/-- Example: a `type` array whose first element is itself an array (not a
scalar), exercising the `value[0]` fallback. -/
def exNestedType : Json :=
  Json.obj [("type", Json.arr [Json.arr [Json.str "x"]])]

/-- Example: well-formed `type` arrays (non-empty, scalar elements) at several
places, plus an already scalar `type`. -/
def exGoodTypes : Json :=
  Json.obj
    [("a", Json.obj [("type", Json.arr [Json.str "integer", Json.str "number"])]),
     ("type", Json.str "object"),
     ("b", Json.arr [Json.obj [("type", Json.arr [Json.str "boolean"])]])]

/-- Example: an empty `type` array nested inside another list-valued `type`,
which the normalizer's walk never visits. -/
def exShadowedEmpty : Json :=
  Json.obj [("type", Json.arr [Json.obj [("type", Json.arr [])]])]

/-- Example: an empty `type` array in walk position. -/
def exEmptyType : Json :=
  Json.obj [("x", Json.obj [("type", Json.arr [])])]

/-- Example: an empty `type` array in a document with a `definitions` dict
that has no duplicate pairs. -/
def exEmptyTypeDoc : Json :=
  Json.obj
    [("definitions", Json.obj [("A", Json.obj [])]),
     ("x", Json.obj [("type", Json.arr [])])]

/-- Whether a fallible computation succeeded (the run reaches the final
`json.dump` instead of the top-level `except` handler). -/
def exceptIsOk {α : Type} : Except String α → Bool
  | .ok _ => true
  | .error _ => false

deriving instance DecidableEq for Except

theorem lookupKey_eq_none_iff (kvs : List (String × Json)) (k : String) :
    lookupKey kvs k = none ↔ k ∉ keysOf kvs := by
  induction kvs with
  | nil => simp [lookupKey, keysOf]
  | cons kv rest ih =>
      obtain ⟨k', v⟩ := kv
      by_cases h : k' = k
      · subst h
        simp [lookupKey, keysOf]
      · have hne : k ≠ k' := fun hk => h hk.symm
        rw [lookupKey, if_neg h, ih]
        simp [keysOf, not_or, hne]

theorem keysOf_setKey (kvs : List (String × Json)) (k : String) (v : Json) :
    keysOf (setKey kvs k v) = keysOf kvs := by
  induction kvs with
  | nil => rfl
  | cons kv rest ih =>
      simp only [setKey, keysOf, List.map_cons] at ih ⊢
      rw [ih]
      by_cases h : kv.1 = k
      · simp [h]
      · simp [h]

theorem lookupKey_setKey_ne (kvs : List (String × Json)) {k k' : String} (v : Json)
    (h : k' ≠ k) : lookupKey (setKey kvs k v) k' = lookupKey kvs k' := by
  induction kvs with
  | nil => rfl
  | cons kv rest ih =>
      obtain ⟨k1, w⟩ := kv
      by_cases hk : k1 = k
      · rw [setKey, if_pos hk, lookupKey, lookupKey,
          if_neg (fun he => h he.symm), if_neg (fun he : k1 = k' => h (he.symm.trans hk))]
        exact ih
      · rw [setKey, if_neg hk, lookupKey, lookupKey]
        by_cases he : k1 = k'
        · rw [if_pos he, if_pos he]
        · rw [if_neg he, if_neg he]
          exact ih

theorem lookupKey_setKey_some (kvs : List (String × Json)) {k : String} (v w : Json)
    (h : lookupKey kvs k = some w) : lookupKey (setKey kvs k v) k = some v := by
  induction kvs with
  | nil => simp [lookupKey] at h
  | cons kv rest ih =>
      obtain ⟨k1, w1⟩ := kv
      by_cases hk : k1 = k
      · rw [setKey, if_pos hk, lookupKey, if_pos rfl]
      · rw [lookupKey, if_neg hk] at h
        rw [setKey, if_neg hk, lookupKey, if_neg hk]
        exact ih h

theorem lookupKey_filter_ne (kvs : List (String × Json)) (d k : String) :
    lookupKey (kvs.filter (fun kv => kv.1 ≠ d)) k =
      if k = d then none else lookupKey kvs k := by
  induction kvs with
  | nil => simp [lookupKey]
  | cons kv rest ih =>
      obtain ⟨k1, w⟩ := kv
      by_cases hd : k1 = d
      · rw [List.filter_cons_of_neg (by simp [hd]), ih]
        by_cases hk : k = d
        · rw [if_pos hk, if_pos hk]
        · rw [if_neg hk, if_neg hk, lookupKey,
            if_neg (fun he : k1 = k => hk (he.symm.trans hd))]
      · rw [List.filter_cons_of_pos (by simp [hd])]
        by_cases hk : k1 = k
        · have : ¬ k = d := fun he => hd (hk.trans he)
          rw [lookupKey, if_pos hk, if_neg this, lookupKey, if_pos hk]
        · rw [lookupKey, if_neg hk, ih, lookupKey, if_neg hk]

theorem keysOf_filter_ne (kvs : List (String × Json)) (d : String) :
    keysOf (kvs.filter (fun kv => kv.1 ≠ d)) = (keysOf kvs).filter (fun k => k ≠ d) := by
  induction kvs with
  | nil => rfl
  | cons kv rest ih =>
      obtain ⟨k1, w⟩ := kv
      by_cases hd : k1 = d
      · rw [List.filter_cons_of_neg (by simp [hd])]
        simp only [keysOf, List.map_cons]
        rw [List.filter_cons_of_neg (by simp [hd])]
        exact ih
      · rw [List.filter_cons_of_pos (by simp [hd])]
        simp only [keysOf, List.map_cons]
        rw [List.filter_cons_of_pos (by simp [hd])]
        simpa [keysOf] using ih

theorem hasDot_removeDots (s : String) : hasDot (removeDots s) = false := by
  simp [hasDot, removeDots, List.any_filter]

theorem ne_of_dot (a b : String) (ha : hasDot a = true) (hb : hasDot b = false) :
    a ≠ b := by
  intro he
  rw [he, hb] at ha
  exact Bool.false_ne_true ha

theorem refStr_inj {a b : String} (h : refStr a = refStr b) : a = b := by
  have hd := congrArg String.data h
  simp only [refStr, String.data_append] at hd
  have h2 := List.append_cancel_left hd
  cases a
  cases b
  exact congrArg String.mk h2

theorem contains_keys_iff (ks : List String) (k : String) :
    ks.contains k = true ↔ k ∈ ks := by
  simp [List.contains, List.elem_iff]

theorem filterMap_dup_aux (l : List (String × Json)) (ks : List String) :
    (l.filterMap (fun kv =>
        if hasDot kv.1 ∧ ks.contains (removeDots kv.1) then
          some (kv.1, removeDots kv.1)
        else none)) =
      ((keysOf l).filter (fun n => hasDot n && ks.contains (removeDots n))).map
        (fun n => (n, removeDots n)) := by
  induction l with
  | nil => rfl
  | cons kv rest ih =>
      obtain ⟨k, v⟩ := kv
      simp only [List.filterMap_cons, keysOf, List.map_cons]
      by_cases h1 : hasDot k = true
      · by_cases h2 : ks.contains (removeDots k) = true
        · rw [if_pos ⟨h1, h2⟩, List.filter_cons_of_pos (by rw [h1, h2]; rfl)]
          simp only [List.map_cons]
          rw [ih]
          rfl
        · have h2b : ks.contains (removeDots k) = false :=
            Bool.eq_false_iff.mpr h2
          rw [if_neg (fun hc => h2 hc.2),
            List.filter_cons_of_neg (by rw [h2b, Bool.and_false]; exact Bool.false_ne_true)]
          rw [ih]
          rfl
      · have h1b : hasDot k = false := Bool.eq_false_iff.mpr h1
        rw [if_neg (fun hc => h1 hc.1),
          List.filter_cons_of_neg (by rw [h1b, Bool.false_and]; exact Bool.false_ne_true)]
        rw [ih]
        rfl

theorem mem_find_duplicate_schemas (defs : List (String × Json)) (d p : String) :
    (d, p) ∈ find_duplicate_schemas defs ↔
      d ∈ keysOf defs ∧ hasDot d = true ∧
        (keysOf defs).contains (removeDots d) = true ∧ p = removeDots d := by
  rw [show find_duplicate_schemas defs =
        defs.filterMap (fun kv =>
          if hasDot kv.1 ∧ (keysOf defs).contains (removeDots kv.1) then
            some (kv.1, removeDots kv.1)
          else none) from rfl,
    filterMap_dup_aux defs (keysOf defs)]
  constructor
  · intro hm
    obtain ⟨n, hn, he⟩ := List.mem_map.mp hm
    have hd : n = d := congrArg Prod.fst he
    have hp : removeDots n = p := congrArg Prod.snd he
    subst hd
    obtain ⟨hnk, hc⟩ := List.mem_filter.mp hn
    simp only [Bool.and_eq_true] at hc
    exact ⟨hnk, hc.1, hc.2, hp.symm⟩
  · rintro ⟨hk, h1, h2, rfl⟩
    exact List.mem_map.mpr ⟨d, List.mem_filter.mpr ⟨hk, by rw [h1, h2]; rfl⟩, rfl⟩

/-- C2: the Duplicate Detector returns exactly the pairs
`(name, name with dots removed)` for the keys of `definitions` that contain a
dot and whose dot-stripped form is also a key, in key iteration order
(`duplicateDetectorSpec` is the spec's own wording of that contract), and in
particular returns the empty sequence when no key qualifies.  The embedding
of `find_duplicate_schemas` is a pure function, so it has no side effects on
its argument. -/
theorem duplicate_detector_correct (defs : List (String × Json)) :
    find_duplicate_schemas defs = duplicateDetectorSpec defs := by
  rw [duplicateDetectorSpec]
  exact filterMap_dup_aux defs (keysOf defs)

theorem keysOf_fixRefsEntries (kvs : List (String × Json)) (o n : String) :
    keysOf (fixRefsEntries kvs o n) = keysOf kvs := by
  induction kvs with
  | nil => rfl
  | cons kv rest ih =>
      obtain ⟨k, v⟩ := kv
      simp only [keysOf] at ih
      by_cases h : k = "$ref" ∧ v = .str (refStr o)
      · simp only [fixRefsEntries, if_pos h, keysOf, List.map_cons]
        rw [ih]
      · simp only [fixRefsEntries, if_neg h, keysOf, List.map_cons]
        rw [ih]

theorem lookup_fixRefsEntries (kvs : List (String × Json)) (o n k : String) :
    lookupKey (fixRefsEntries kvs o n) k =
      (lookupKey kvs k).map
        (fun v =>
          if k = "$ref" ∧ v = .str (refStr o) then Json.str (refStr n)
          else fix_schema_references v o n) := by
  induction kvs with
  | nil => rfl
  | cons kv rest ih =>
      obtain ⟨k1, v⟩ := kv
      by_cases h : k1 = "$ref" ∧ v = .str (refStr o)
      · rw [fixRefsEntries, if_pos h, lookupKey, lookupKey]
        by_cases hk : k1 = k
        · subst hk
          simp [h.1, h.2]
        · rw [if_neg hk, if_neg hk]
          exact ih
      · rw [fixRefsEntries, if_neg h, lookupKey, lookupKey]
        by_cases hk : k1 = k
        · subst hk
          simp [h]
        · rw [if_neg hk, if_neg hk]
          exact ih

theorem fixRefsList_eq_map (xs : List Json) (o n : String) :
    fixRefsList xs o n = xs.map (fun x => fix_schema_references x o n) := by
  induction xs with
  | nil => rfl
  | cons x rest ih => rw [fixRefsList, List.map_cons, ih]

theorem topShape_fix (j : Json) (o n : String) :
    topShape (fix_schema_references j o n) = topShape j := by
  cases j with
  | obj kvs =>
      simp only [fix_schema_references, topShape]
      rw [keysOf_fixRefsEntries]
  | arr xs =>
      simp only [fix_schema_references, topShape]
      rw [fixRefsList_eq_map, List.length_map]
  | null => rfl
  | bool b => rfl
  | num m => rfl
  | str s => rfl

theorem fix_eq_str {v : Json} {o n t : String}
    (h : fix_schema_references v o n = Json.str t) : v = Json.str t := by
  cases v <;> simp_all [fix_schema_references]

theorem fix_scalar {v : Json} (o n : String) (h : v.isScalar = true) :
    fix_schema_references v o n = v := by
  cases v <;> simp_all [fix_schema_references, Json.isScalar]

theorem getPath_fix_shape (o n : String) (p : List PathElem) (j : Json) :
    (getPath (fix_schema_references j o n) p).map topShape =
      (getPath j p).map topShape := by
  induction p generalizing j with
  | nil => simp [getPath, topShape_fix]
  | cons e rest ih =>
      rw [getPath, getPath]
      cases j with
      | obj kvs =>
          cases e with
          | key k =>
              show ((lookupKey (fixRefsEntries kvs o n) k).bind _).map topShape = _
              rw [lookup_fixRefsEntries]
              cases hv : lookupKey kvs k with
              | none => simp [Json.childAt, hv]
              | some v =>
                  simp only [Option.map_some', Option.some_bind]
                  by_cases hc : k = "$ref" ∧ v = .str (refStr o)
                  · rw [if_pos hc]
                    obtain ⟨-, rfl⟩ := hc
                    cases rest <;> simp [getPath, Json.childAt, hv, topShape]
                  · rw [if_neg hc]
                    simpa [Json.childAt, hv] using ih v
          | idx i => simp [Json.childAt, fix_schema_references]
      | arr xs =>
          cases e with
          | key k => simp [Json.childAt, fix_schema_references]
          | idx i =>
              show (((fixRefsList xs o n)[i]?).bind _).map topShape = _
              rw [fixRefsList_eq_map, List.getElem?_map]
              cases hv : xs[i]? with
              | none => simp [Json.childAt, hv]
              | some x =>
                  simp only [Option.map_some', Option.some_bind]
                  simpa [Json.childAt, hv] using ih x
      | null => simp [Json.childAt, fix_schema_references]
      | bool b => simp [Json.childAt, fix_schema_references]
      | num m => simp [Json.childAt, fix_schema_references]
      | str s => simp [Json.childAt, fix_schema_references]

theorem getPath_fix_none (o n : String) (p : List PathElem) (j : Json)
    (h : getPath j p = none) : getPath (fix_schema_references j o n) p = none := by
  have hs := getPath_fix_shape o n p j
  rw [h] at hs
  simp only [Option.map_none'] at hs
  cases hg : getPath (fix_schema_references j o n) p with
  | none => rfl
  | some w => rw [hg] at hs; simp at hs

theorem getPath_fix_scalar (o n : String) (p : List PathElem) (j v : Json)
    (hp : getPath j p = some v) (hs : v.isScalar = true) :
    getPath (fix_schema_references j o n) p =
      some (if p.getLast? = some (.key "$ref") ∧ v = .str (refStr o)
            then Json.str (refStr n) else v) := by
  induction p generalizing j with
  | nil =>
      simp only [getPath, Option.some.injEq] at hp
      subst hp
      simp [getPath, fix_scalar o n hs]
  | cons e rest ih =>
      rw [getPath] at hp
      rw [getPath]
      cases j with
      | obj kvs =>
          cases e with
          | key k =>
              simp only [Json.childAt] at hp
              show (lookupKey (fixRefsEntries kvs o n) k).bind _ = _
              rw [lookup_fixRefsEntries]
              cases hv : lookupKey kvs k with
              | none => rw [hv] at hp; simp at hp
              | some w =>
                  rw [hv] at hp
                  simp only [Option.some_bind] at hp
                  simp only [Option.map_some', Option.some_bind]
                  by_cases hc : k = "$ref" ∧ w = .str (refStr o)
                  · rw [if_pos hc]
                    obtain ⟨rfl, rfl⟩ := hc
                    cases rest with
                    | nil =>
                        simp only [getPath, Option.some.injEq] at hp
                        subst hp
                        simp [getPath]
                    | cons e2 r2 =>
                        rw [getPath] at hp
                        simp [Json.childAt] at hp
                  · rw [if_neg hc]
                    rw [ih w hp]
                    cases rest with
                    | nil =>
                        simp only [getPath, Option.some.injEq] at hp
                        subst hp
                        have hcond :
                            ¬(([PathElem.key k].getLast? = some (.key "$ref")) ∧
                              w = .str (refStr o)) := by
                          rintro ⟨h1, h2⟩
                          simp only [List.getLast?_singleton, Option.some.injEq,
                            PathElem.key.injEq] at h1
                          exact hc ⟨h1, h2⟩
                        rw [if_neg (by simp), if_neg hcond]
                    | cons e2 r2 =>
                        rw [List.getLast?_cons_cons]
          | idx i => simp [Json.childAt] at hp
      | arr xs =>
          cases e with
          | key k => simp [Json.childAt] at hp
          | idx i =>
              simp only [Json.childAt] at hp
              show ((fixRefsList xs o n)[i]?).bind _ = _
              rw [fixRefsList_eq_map, List.getElem?_map]
              cases hv : xs[i]? with
              | none => rw [hv] at hp; simp at hp
              | some x =>
                  rw [hv] at hp
                  simp only [Option.some_bind] at hp
                  simp only [Option.map_some', Option.some_bind]
                  rw [ih x hp]
                  cases rest with
                  | nil =>
                      simp only [getPath, Option.some.injEq] at hp
                      subst hp
                      rw [if_neg (by simp), if_neg (by simp)]
                  | cons e2 r2 =>
                      rw [List.getLast?_cons_cons]
      | null => simp [Json.childAt] at hp
      | bool b => simp [Json.childAt] at hp
      | num m => simp [Json.childAt] at hp
      | str s => simp [Json.childAt] at hp

mutual
theorem fix_noop : ∀ (j : Json) (o n : String),
    countExactRefs j o = 0 → fix_schema_references j o n = j
  | .null, _, _, _ => rfl
  | .bool _, _, _, _ => rfl
  | .num _, _, _, _ => rfl
  | .str _, _, _, _ => rfl
  | .arr xs, o, n, h => by
      rw [fix_schema_references, fixList_noop xs o n (by simpa [countExactRefs] using h)]
  | .obj kvs, o, n, h => by
      rw [fix_schema_references, fixEntries_noop kvs o n (by simpa [countExactRefs] using h)]
theorem fixEntries_noop : ∀ (kvs : List (String × Json)) (o n : String),
    countExactRefsEntries kvs o = 0 → fixRefsEntries kvs o n = kvs
  | [], _, _, _ => rfl
  | (k, v) :: rest, o, n, h => by
      rw [countExactRefsEntries] at h
      have h1 : ¬(k = "$ref" ∧ v = .str (refStr o)) := by
        intro hc
        rw [if_pos hc] at h
        omega
      rw [if_neg h1] at h
      rw [fixRefsEntries, if_neg h1, fix_noop v o n (by omega),
        fixEntries_noop rest o n (by omega)]
theorem fixList_noop : ∀ (xs : List Json) (o n : String),
    countExactRefsList xs o = 0 → fixRefsList xs o n = xs
  | [], _, _, _ => rfl
  | x :: rest, o, n, h => by
      rw [countExactRefsList] at h
      rw [fixRefsList, fix_noop x o n (by omega), fixList_noop rest o n (by omega)]
end

mutual
theorem countRefs_fix_self : ∀ (j : Json) (o n : String), o ≠ n →
    countExactRefs (fix_schema_references j o n) o = 0
  | .null, _, _, _ => rfl
  | .bool _, _, _, _ => rfl
  | .num _, _, _, _ => rfl
  | .str _, _, _, _ => rfl
  | .arr xs, o, n, ho => by
      rw [fix_schema_references, countExactRefs, countRefsList_fix_self xs o n ho]
  | .obj kvs, o, n, ho => by
      rw [fix_schema_references, countExactRefs, countRefsEntries_fix_self kvs o n ho]
theorem countRefsEntries_fix_self : ∀ (kvs : List (String × Json)) (o n : String),
    o ≠ n → countExactRefsEntries (fixRefsEntries kvs o n) o = 0
  | [], _, _, _ => rfl
  | (k, v) :: rest, o, n, ho => by
      by_cases hc : k = "$ref" ∧ v = .str (refStr o)
      · rw [fixRefsEntries, if_pos hc, countExactRefsEntries,
          if_neg (fun hb : _ ∧ Json.str (refStr n) = Json.str (refStr o) =>
            ho (refStr_inj (Json.str.inj hb.2)).symm),
          countRefsEntries_fix_self rest o n ho]
        rfl
      · rw [fixRefsEntries, if_neg hc, countExactRefsEntries,
          if_neg (fun hb : _ ∧ _ =>
            hc ⟨hb.1, fix_eq_str hb.2⟩),
          countRefs_fix_self v o n ho, countRefsEntries_fix_self rest o n ho]
theorem countRefsList_fix_self : ∀ (xs : List Json) (o n : String),
    o ≠ n → countExactRefsList (fixRefsList xs o n) o = 0
  | [], _, _, _ => rfl
  | x :: rest, o, n, ho => by
      rw [fixRefsList, countExactRefsList, countRefs_fix_self x o n ho,
        countRefsList_fix_self rest o n ho]
end

mutual
theorem countRefs_fix_preserve : ∀ (j : Json) (o n X : String), X ≠ n →
    countExactRefs j X = 0 → countExactRefs (fix_schema_references j o n) X = 0
  | .null, _, _, _, _, _ => rfl
  | .bool _, _, _, _, _, _ => rfl
  | .num _, _, _, _, _, _ => rfl
  | .str _, _, _, _, _, _ => rfl
  | .arr xs, o, n, X, hX, h => by
      rw [fix_schema_references, countExactRefs,
        countRefsList_fix_preserve xs o n X hX (by simpa [countExactRefs] using h)]
  | .obj kvs, o, n, X, hX, h => by
      rw [fix_schema_references, countExactRefs,
        countRefsEntries_fix_preserve kvs o n X hX (by simpa [countExactRefs] using h)]
theorem countRefsEntries_fix_preserve :
    ∀ (kvs : List (String × Json)) (o n X : String), X ≠ n →
      countExactRefsEntries kvs X = 0 →
      countExactRefsEntries (fixRefsEntries kvs o n) X = 0
  | [], _, _, _, _, _ => rfl
  | (k, v) :: rest, o, n, X, hX, h => by
      rw [countExactRefsEntries] at h
      have h1 : ¬(k = "$ref" ∧ v = .str (refStr X)) := by
        intro hcX
        rw [if_pos hcX] at h
        omega
      rw [if_neg h1] at h
      by_cases hc : k = "$ref" ∧ v = .str (refStr o)
      · rw [fixRefsEntries, if_pos hc, countExactRefsEntries,
          if_neg (fun hb : _ ∧ Json.str (refStr n) = Json.str (refStr X) =>
            hX (refStr_inj (Json.str.inj hb.2)).symm),
          countRefsEntries_fix_preserve rest o n X hX (by omega)]
        rfl
      · rw [fixRefsEntries, if_neg hc, countExactRefsEntries,
          if_neg (fun hb : _ ∧ _ => h1 ⟨hb.1, fix_eq_str hb.2⟩),
          countRefs_fix_preserve v o n X hX (by omega),
          countRefsEntries_fix_preserve rest o n X hX (by omega)]
theorem countRefsList_fix_preserve : ∀ (xs : List Json) (o n X : String), X ≠ n →
    countExactRefsList xs X = 0 → countExactRefsList (fixRefsList xs o n) X = 0
  | [], _, _, _, _, _ => rfl
  | x :: rest, o, n, X, hX, h => by
      rw [countExactRefsList] at h
      rw [fixRefsList, countExactRefsList,
        countRefs_fix_preserve x o n X hX (by omega),
        countRefsList_fix_preserve rest o n X hX (by omega)]
end

/-- C4: the Reference Rewriter rewrites a value only when its key is `$ref`
and the value is the exact full string `#/definitions/<retired>`: (a) every
node keeps its one-level shape (dicts keep all keys in order, lists keep their
length, scalars stay scalars) at every path; (b) a scalar reached by a path is
unchanged unless the path ends in the key `$ref` and the value is exactly
`#/definitions/<o>`, in which case it becomes `#/definitions/<n>` — so
references to unrelated names (including names having the retired name as a
proper prefix) and non-reference strings containing the same text are never
altered, at any depth; (c) on a document with no exact reference to the
retired name the rewriter is the identity. -/
theorem reference_rewriter_frame (j : Json) (o n : String) (p' p : List PathElem)
    (v : Json) (hp : getPath j p = some v) (hs : v.isScalar = true) :
    (getPath (fix_schema_references j o n) p').map topShape =
        (getPath j p').map topShape ∧
      getPath (fix_schema_references j o n) p =
        some (if p.getLast? = some (.key "$ref") ∧ v = .str (refStr o)
              then Json.str (refStr n) else v) ∧
      (countExactRefs j o = 0 → fix_schema_references j o n = j) :=
  ⟨getPath_fix_shape o n p' j, getPath_fix_scalar o n p j v hp hs,
   fun h => fix_noop j o n h⟩

/-- Witness for C4 at `exPrefix`: rewriting `Foo` to `Bar` leaves the
reference `#/definitions/FooBar` (which merely has the retired name as a
prefix) untouched, and is in fact the identity on the whole document. -/
theorem reference_rewriter_frame_witness :
    (getPath (fix_schema_references exPrefix "Foo" "Bar")
          [PathElem.key "paths", PathElem.key "p", PathElem.key "$ref"]).map topShape =
        (getPath exPrefix
          [PathElem.key "paths", PathElem.key "p", PathElem.key "$ref"]).map topShape ∧
      getPath (fix_schema_references exPrefix "Foo" "Bar")
          [PathElem.key "paths", PathElem.key "p", PathElem.key "$ref"] =
        some (if ([PathElem.key "paths", PathElem.key "p",
                PathElem.key "$ref"].getLast? = some (.key "$ref")) ∧
              Json.str "#/definitions/FooBar" = .str (refStr "Foo")
              then Json.str (refStr "Bar") else Json.str "#/definitions/FooBar") ∧
      (countExactRefs exPrefix "Foo" = 0 →
        fix_schema_references exPrefix "Foo" "Bar" = exPrefix) :=
  reference_rewriter_frame exPrefix "Foo" "Bar"
    [PathElem.key "paths", PathElem.key "p", PathElem.key "$ref"]
    [PathElem.key "paths", PathElem.key "p", PathElem.key "$ref"]
    (Json.str "#/definitions/FooBar") (by decide) (by decide)

theorem except_bind_ok {α β : Type} {x : Except String α} {f : α → Except String β}
    {b : β} (h : (x >>= f) = .ok b) : ∃ a, x = .ok a ∧ f a = .ok b := by
  cases x with
  | ok a => exact ⟨a, rfl, h⟩
  | error e => simp [Bind.bind, Except.bind] at h

theorem pickType_ok_of_ne_nil {l : List Json} (h : l ≠ []) :
    pickType l = .ok (pickTypeSpec l) := by
  rw [pickType.eq_def, pickTypeSpec]
  by_cases h1 : l.contains (Json.str "string") = true
  · rw [if_pos h1, if_pos h1]
  · rw [if_neg h1, if_neg h1]
    by_cases h2 : l.contains (Json.str "number") = true
    · rw [if_pos h2, if_pos h2]
    · rw [if_neg h2, if_neg h2]
      by_cases h3 : l.contains (Json.str "integer") = true
      · rw [if_pos h3, if_pos h3]
      · rw [if_neg h3, if_neg h3]
        cases l with
        | nil => exact absurd rfl h
        | cons x xs => rfl

mutual
theorem fix_type_arrays_spec : ∀ (j : Json), GoodTypes j = true →
    fix_type_arrays j = .ok (typeNormalizerSpec j, countTypeArrays j)
  | .null, _ => rfl
  | .bool _, _ => rfl
  | .num _, _ => rfl
  | .str _, _ => rfl
  | .arr xs, h => by
      rw [fix_type_arrays, fixTypeList_spec xs (by simpa [GoodTypes] using h)]
      rfl
  | .obj kvs, h => by
      rw [fix_type_arrays, fixTypeEntries_spec kvs (by simpa [GoodTypes] using h)]
      rfl
theorem fixTypeEntries_spec : ∀ (kvs : List (String × Json)),
    goodTypesEntries kvs = true →
    fixTypeEntries kvs = .ok (typeNormEntries kvs, countTypeEntries kvs)
  | [], _ => rfl
  | (k, v) :: rest, h => by
      simp only [goodTypesEntries, Bool.and_eq_true] at h
      obtain ⟨⟨hok, hv⟩, hrest⟩ := h
      by_cases hc : k = "type" ∧ v.isArr = true
      · have hne : v.arrElems ≠ [] := by
          intro he
          rw [typeValueOK, hc.2, he] at hok
          simp at hok
          exact hok hc.1
        rw [fixTypeEntries, if_pos hc, pickType_ok_of_ne_nil hne,
          typeNormEntries, countTypeEntries, if_pos hc, if_pos hc]
        simp only [Bind.bind, Except.bind, fixTypeEntries_spec rest hrest]
        rw [Nat.add_comm]
      · rw [fixTypeEntries, if_neg hc, typeNormEntries, countTypeEntries,
          if_neg hc, if_neg hc]
        simp only [Bind.bind, Except.bind, fix_type_arrays_spec v hv,
          fixTypeEntries_spec rest hrest]
theorem fixTypeList_spec : ∀ (xs : List Json), goodTypesList xs = true →
    fixTypeList xs = .ok (typeNormList xs, countTypeList xs)
  | [], _ => rfl
  | x :: rest, h => by
      simp only [goodTypesList, Bool.and_eq_true] at h
      rw [fixTypeList, typeNormList, countTypeList]
      simp only [Bind.bind, Except.bind, fix_type_arrays_spec x h.1,
        fixTypeList_spec rest h.2]
end

mutual
theorem fixType_id_of_no_typeList : ∀ (j : Json), hasTypeList j = false →
    fix_type_arrays j = .ok (j, 0)
  | .null, _ => rfl
  | .bool _, _ => rfl
  | .num _, _ => rfl
  | .str _, _ => rfl
  | .arr xs, h => by
      rw [fix_type_arrays,
        fixTypeList_id_of_no_typeList xs (by simpa [hasTypeList] using h)]
      rfl
  | .obj kvs, h => by
      rw [fix_type_arrays,
        fixTypeEntries_id_of_no_typeList kvs (by simpa [hasTypeList] using h)]
      rfl
theorem fixTypeEntries_id_of_no_typeList : ∀ (kvs : List (String × Json)),
    hasTypeListEntries kvs = false → fixTypeEntries kvs = .ok (kvs, 0)
  | [], _ => rfl
  | (k, v) :: rest, h => by
      simp only [hasTypeListEntries, Bool.or_eq_false_iff, Bool.and_eq_false_iff] at h
      obtain ⟨⟨h1, h2⟩, h3⟩ := h
      have hc : ¬(k = "type" ∧ v.isArr = true) := by
        rintro ⟨rfl, hv⟩
        rcases h1 with h1 | h1
        · simp at h1
        · rw [hv] at h1
          simp at h1
      rw [fixTypeEntries, if_neg hc]
      simp only [Bind.bind, Except.bind, fixType_id_of_no_typeList v h2,
        fixTypeEntries_id_of_no_typeList rest h3]
theorem fixTypeList_id_of_no_typeList : ∀ (xs : List Json),
    hasTypeListList xs = false → fixTypeList xs = .ok (xs, 0)
  | [], _ => rfl
  | x :: rest, h => by
      simp only [hasTypeListList, Bool.or_eq_false_iff] at h
      rw [fixTypeList]
      simp only [Bind.bind, Except.bind, fixType_id_of_no_typeList x h.1,
        fixTypeList_id_of_no_typeList rest h.2]
end

theorem isScalar_no_typeList {v : Json} (h : v.isScalar = true) :
    hasTypeList v = false := by
  cases v <;> simp_all [Json.isScalar, hasTypeList]

theorem isScalar_not_isArr {v : Json} (h : v.isScalar = true) :
    v.isArr = false := by
  cases v <;> simp_all [Json.isScalar, Json.isArr]

theorem pickTypeSpec_scalar {l : List Json}
    (h : (!l.isEmpty && l.all Json.isScalar) = true) :
    (pickTypeSpec l).isScalar = true := by
  simp only [Bool.and_eq_true] at h
  rw [pickTypeSpec]
  by_cases h1 : l.contains (Json.str "string") = true
  · rw [if_pos h1]; rfl
  · rw [if_neg h1]
    by_cases h2 : l.contains (Json.str "number") = true
    · rw [if_pos h2]; rfl
    · rw [if_neg h2]
      by_cases h3 : l.contains (Json.str "integer") = true
      · rw [if_pos h3]; rfl
      · rw [if_neg h3]
        cases l with
        | nil => simp at h
        | cons x xs =>
            simp only [List.headD_cons]
            have := h.2
            simp only [List.all_cons, Bool.and_eq_true] at this
            exact this.1

theorem isArr_typeNorm_of_not_isArr {v : Json} (h : v.isArr = false) :
    (typeNormalizerSpec v).isArr = false := by
  cases v <;> simp_all [Json.isArr, typeNormalizerSpec]

mutual
theorem no_typeList_typeNorm : ∀ (j : Json), GoodTypes j = true →
    hasTypeList (typeNormalizerSpec j) = false
  | .null, _ => rfl
  | .bool _, _ => rfl
  | .num _, _ => rfl
  | .str _, _ => rfl
  | .arr xs, h => by
      rw [typeNormalizerSpec, hasTypeList,
        no_typeList_typeNormList xs (by simpa [GoodTypes] using h)]
  | .obj kvs, h => by
      rw [typeNormalizerSpec, hasTypeList,
        no_typeList_typeNormEntries kvs (by simpa [GoodTypes] using h)]
theorem no_typeList_typeNormEntries : ∀ (kvs : List (String × Json)),
    goodTypesEntries kvs = true →
    hasTypeListEntries (typeNormEntries kvs) = false
  | [], _ => rfl
  | (k, v) :: rest, h => by
      simp only [goodTypesEntries, Bool.and_eq_true] at h
      obtain ⟨⟨hok, hv⟩, hrest⟩ := h
      by_cases hc : k = "type" ∧ v.isArr = true
      · have hsc : (pickTypeSpec v.arrElems).isScalar = true := by
          apply pickTypeSpec_scalar
          have hkt : (k == "type") = true := by simp [hc.1]
          rw [typeValueOK, hc.2, hkt] at hok
          simpa using hok
        rw [typeNormEntries, if_pos hc, hasTypeListEntries,
          no_typeList_typeNormEntries rest hrest,
          isScalar_no_typeList hsc, isScalar_not_isArr hsc]
        simp
      · rw [typeNormEntries, if_neg hc, hasTypeListEntries,
          no_typeList_typeNormEntries rest hrest,
          no_typeList_typeNorm v hv]
        by_cases hk : k = "type"
        · have hva : v.isArr = false := by
            cases hva : v.isArr
            · rfl
            · exact absurd ⟨hk, hva⟩ hc
          rw [isArr_typeNorm_of_not_isArr hva]
          simp
        · have : (k == "type") = false := by
            simpa using hk
          rw [this]
          simp
theorem no_typeList_typeNormList : ∀ (xs : List Json), goodTypesList xs = true →
    hasTypeListList (typeNormList xs) = false
  | [], _ => rfl
  | x :: rest, h => by
      simp only [goodTypesList, Bool.and_eq_true] at h
      rw [typeNormList, hasTypeListList, no_typeList_typeNorm x h.1,
        no_typeList_typeNormList rest h.2]
      rfl
end

mutual
theorem fixType_err_of_hitsEmpty : ∀ (j : Json), hitsEmptyTypeArray j = true →
    exceptIsOk (fix_type_arrays j) = false
  | .arr xs, h => by
      rw [fix_type_arrays]
      have hx := fixTypeList_err_of_hitsEmpty xs (by simpa [hitsEmptyTypeArray] using h)
      cases hl : fixTypeList xs with
      | error e => simp [Bind.bind, Except.bind, hl, exceptIsOk]
      | ok pr => rw [hl] at hx; simp [exceptIsOk] at hx
  | .obj kvs, h => by
      rw [fix_type_arrays]
      have hx := fixTypeEntries_err_of_hitsEmpty kvs (by simpa [hitsEmptyTypeArray] using h)
      cases hl : fixTypeEntries kvs with
      | error e => simp [Bind.bind, Except.bind, hl, exceptIsOk]
      | ok pr => rw [hl] at hx; simp [exceptIsOk] at hx
theorem fixTypeEntries_err_of_hitsEmpty : ∀ (kvs : List (String × Json)),
    hitsEmptyEntries kvs = true → exceptIsOk (fixTypeEntries kvs) = false
  | (k, v) :: rest, h => by
      simp only [hitsEmptyEntries, Bool.or_eq_true] at h
      by_cases hc : k = "type" ∧ v.isArr = true
      · rw [if_pos hc] at h
        rw [fixTypeEntries, if_pos hc]
        rcases h with h | h
        · have : v.arrElems = [] := by simpa using h
          rw [this]
          rfl
        · cases ht : pickType v.arrElems with
          | error e => simp [Bind.bind, Except.bind, ht, exceptIsOk]
          | ok t =>
              have hx := fixTypeEntries_err_of_hitsEmpty rest h
              cases hr : fixTypeEntries rest with
              | error e => simp [Bind.bind, Except.bind, ht, hr, exceptIsOk]
              | ok pr => rw [hr] at hx; simp [exceptIsOk] at hx
      · rw [if_neg hc] at h
        rw [fixTypeEntries, if_neg hc]
        rcases h with h | h
        · have hx := fixType_err_of_hitsEmpty v h
          cases hv : fix_type_arrays v with
          | error e => simp [Bind.bind, Except.bind, hv, exceptIsOk]
          | ok pr => rw [hv] at hx; simp [exceptIsOk] at hx
        · cases hv : fix_type_arrays v with
          | error e => simp [Bind.bind, Except.bind, hv, exceptIsOk]
          | ok pr =>
              have hx := fixTypeEntries_err_of_hitsEmpty rest h
              cases hr : fixTypeEntries rest with
              | error e => simp [Bind.bind, Except.bind, hv, hr, exceptIsOk]
              | ok pr2 => rw [hr] at hx; simp [exceptIsOk] at hx
theorem fixTypeList_err_of_hitsEmpty : ∀ (xs : List Json),
    hitsEmptyList xs = true → exceptIsOk (fixTypeList xs) = false
  | x :: rest, h => by
      simp only [hitsEmptyList, Bool.or_eq_true] at h
      rw [fixTypeList]
      rcases h with h | h
      · have hx := fixType_err_of_hitsEmpty x h
        cases hv : fix_type_arrays x with
        | error e => simp [Bind.bind, Except.bind, hv, exceptIsOk]
        | ok pr => rw [hv] at hx; simp [exceptIsOk] at hx
      · cases hv : fix_type_arrays x with
        | error e => simp [Bind.bind, Except.bind, hv, exceptIsOk]
        | ok pr =>
            have hx := fixTypeList_err_of_hitsEmpty rest h
            cases hr : fixTypeList rest with
            | error e => simp [Bind.bind, Except.bind, hv, hr, exceptIsOk]
            | ok pr2 => rw [hr] at hx; simp [exceptIsOk] at hx
end

theorem fixType_obj_inv {kvs : List (String × Json)} {j' : Json} {c : Nat}
    (h : fix_type_arrays (.obj kvs) = .ok (j', c)) :
    ∃ kvs', j' = .obj kvs' ∧ fixTypeEntries kvs = .ok (kvs', c) := by
  rw [fix_type_arrays] at h
  cases he : fixTypeEntries kvs with
  | error e => rw [he] at h; simp [Bind.bind, Except.bind] at h
  | ok pr =>
      rw [he] at h
      obtain ⟨kvs1, c1⟩ := pr
      simp only [Bind.bind, Except.bind, Except.ok.injEq, Prod.mk.injEq] at h
      exact ⟨kvs1, h.1.symm, by rw [h.2]⟩

theorem fixTypeEntries_keys {kvs kvs' : List (String × Json)} {c : Nat}
    (h : fixTypeEntries kvs = .ok (kvs', c)) : keysOf kvs' = keysOf kvs := by
  induction kvs generalizing kvs' c with
  | nil =>
      rw [fixTypeEntries] at h
      simp only [Except.ok.injEq, Prod.mk.injEq] at h
      rw [← h.1]
  | cons kv rest ih =>
      obtain ⟨k, v⟩ := kv
      rw [fixTypeEntries] at h
      by_cases hc : k = "type" ∧ v.isArr = true
      · rw [if_pos hc] at h
        cases ht : pickType v.arrElems with
        | error e => rw [ht] at h; simp [Bind.bind, Except.bind] at h
        | ok t =>
            rw [ht] at h
            cases hr : fixTypeEntries rest with
            | error e => rw [hr] at h; simp [Bind.bind, Except.bind] at h
            | ok pr =>
                obtain ⟨rest', c2⟩ := pr
                rw [hr] at h
                simp only [Bind.bind, Except.bind, Except.ok.injEq, Prod.mk.injEq] at h
                rw [← h.1]
                simp only [keysOf, List.map_cons]
                have hks := ih hr
                simp only [keysOf] at hks
                rw [hks, hc.1]
      · rw [if_neg hc] at h
        cases hv : fix_type_arrays v with
        | error e => rw [hv] at h; simp [Bind.bind, Except.bind] at h
        | ok pr1 =>
            obtain ⟨v', c1⟩ := pr1
            rw [hv] at h
            cases hr : fixTypeEntries rest with
            | error e => rw [hr] at h; simp [Bind.bind, Except.bind] at h
            | ok pr =>
                obtain ⟨rest', c2⟩ := pr
                rw [hr] at h
                simp only [Bind.bind, Except.bind, Except.ok.injEq, Prod.mk.injEq] at h
                rw [← h.1]
                simp only [keysOf, List.map_cons]
                have hks := ih hr
                simp only [keysOf] at hks
                rw [hks]

theorem lookup_fixTypeEntries {kvs kvs' : List (String × Json)} {c : Nat}
    (h : fixTypeEntries kvs = .ok (kvs', c)) (k : String) (hk : k ≠ "type")
    (v : Json) (hv : lookupKey kvs k = some v) :
    ∃ v' c', lookupKey kvs' k = some v' ∧ fix_type_arrays v = .ok (v', c') := by
  induction kvs generalizing kvs' c with
  | nil => simp [lookupKey] at hv
  | cons kv rest ih =>
      obtain ⟨k1, v1⟩ := kv
      rw [fixTypeEntries] at h
      by_cases hc : k1 = "type" ∧ v1.isArr = true
      · rw [if_pos hc] at h
        cases ht : pickType v1.arrElems with
        | error e => rw [ht] at h; simp [Bind.bind, Except.bind] at h
        | ok t =>
            rw [ht] at h
            cases hr : fixTypeEntries rest with
            | error e => rw [hr] at h; simp [Bind.bind, Except.bind] at h
            | ok pr =>
                obtain ⟨rest', c2⟩ := pr
                rw [hr] at h
                simp only [Bind.bind, Except.bind, Except.ok.injEq, Prod.mk.injEq] at h
                have hne : k1 ≠ k := fun he => hk (he ▸ hc.1)
                rw [lookupKey, if_neg hne] at hv
                obtain ⟨v', c', h1, h2⟩ := ih hr hv
                refine ⟨v', c', ?_, h2⟩
                rw [← h.1, lookupKey, if_neg (fun he : "type" = k => hk he.symm)]
                exact h1
      · rw [if_neg hc] at h
        cases hfv : fix_type_arrays v1 with
        | error e => rw [hfv] at h; simp [Bind.bind, Except.bind] at h
        | ok pr1 =>
            obtain ⟨v1', c1⟩ := pr1
            rw [hfv] at h
            cases hr : fixTypeEntries rest with
            | error e => rw [hr] at h; simp [Bind.bind, Except.bind] at h
            | ok pr =>
                obtain ⟨rest', c2⟩ := pr
                rw [hr] at h
                simp only [Bind.bind, Except.bind, Except.ok.injEq, Prod.mk.injEq] at h
                by_cases hke : k1 = k
                · rw [lookupKey, if_pos hke] at hv
                  obtain rfl : v1 = v := Option.some.inj hv
                  refine ⟨v1', c1, ?_, hfv⟩
                  rw [← h.1, lookupKey, if_pos hke]
                · rw [lookupKey, if_neg hke] at hv
                  obtain ⟨v', c', h1, h2⟩ := ih hr hv
                  refine ⟨v', c', ?_, h2⟩
                  rw [← h.1, lookupKey, if_neg hke]
                  exact h1

theorem fixType_eq_str {v : Json} {t : String} {c : Nat}
    (h : fix_type_arrays v = .ok (Json.str t, c)) : v = Json.str t := by
  cases v with
  | null => simp [fix_type_arrays] at h
  | bool b => simp [fix_type_arrays] at h
  | num m => simp [fix_type_arrays] at h
  | str s =>
      simp only [fix_type_arrays, Except.ok.injEq, Prod.mk.injEq, Json.str.injEq] at h
      rw [h.1]
  | arr xs =>
      rw [fix_type_arrays] at h
      cases hl : fixTypeList xs with
      | error e => rw [hl] at h; simp [Bind.bind, Except.bind] at h
      | ok pr => rw [hl] at h; simp [Bind.bind, Except.bind] at h
  | obj kvs =>
      rw [fix_type_arrays] at h
      cases hl : fixTypeEntries kvs with
      | error e => rw [hl] at h; simp [Bind.bind, Except.bind] at h
      | ok pr => rw [hl] at h; simp [Bind.bind, Except.bind] at h

theorem pickType_count_le {l : List Json} {t : Json} {X : String}
    (h : pickType l = .ok t) : countExactRefs t X ≤ countExactRefsList l X := by
  rw [pickType.eq_def] at h
  by_cases h1 : l.contains (Json.str "string") = true
  · rw [if_pos h1] at h
    obtain rfl : Json.str "string" = t := Except.ok.inj h
    exact Nat.zero_le _
  · rw [if_neg h1] at h
    by_cases h2 : l.contains (Json.str "number") = true
    · rw [if_pos h2] at h
      obtain rfl : Json.str "number" = t := Except.ok.inj h
      exact Nat.zero_le _
    · rw [if_neg h2] at h
      by_cases h3 : l.contains (Json.str "integer") = true
      · rw [if_pos h3] at h
        obtain rfl : Json.str "integer" = t := Except.ok.inj h
        exact Nat.zero_le _
      · rw [if_neg h3] at h
        cases l with
        | nil => simp at h
        | cons x xs =>
            obtain rfl : x = t := Except.ok.inj h
            rw [countExactRefsList]
            exact Nat.le_add_right _ _

mutual
theorem countRefs_fixType_le : ∀ (j j' : Json) (c : Nat) (X : String),
    fix_type_arrays j = .ok (j', c) → countExactRefs j' X ≤ countExactRefs j X
  | .null, j', c, X, h => by
      simp only [fix_type_arrays, Except.ok.injEq, Prod.mk.injEq] at h
      rw [← h.1]
  | .bool b, j', c, X, h => by
      simp only [fix_type_arrays, Except.ok.injEq, Prod.mk.injEq] at h
      rw [← h.1]
  | .num m, j', c, X, h => by
      simp only [fix_type_arrays, Except.ok.injEq, Prod.mk.injEq] at h
      rw [← h.1]
  | .str s, j', c, X, h => by
      simp only [fix_type_arrays, Except.ok.injEq, Prod.mk.injEq] at h
      rw [← h.1]
  | .arr xs, j', c, X, h => by
      rw [fix_type_arrays] at h
      cases hl : fixTypeList xs with
      | error e => rw [hl] at h; simp [Bind.bind, Except.bind] at h
      | ok pr =>
          obtain ⟨xs', c1⟩ := pr
          rw [hl] at h
          simp only [Bind.bind, Except.bind, Except.ok.injEq, Prod.mk.injEq] at h
          rw [← h.1, countExactRefs, countExactRefs]
          exact countRefsList_fixType_le xs xs' c1 X hl
  | .obj kvs, j', c, X, h => by
      rw [fix_type_arrays] at h
      cases hl : fixTypeEntries kvs with
      | error e => rw [hl] at h; simp [Bind.bind, Except.bind] at h
      | ok pr =>
          obtain ⟨kvs', c1⟩ := pr
          rw [hl] at h
          simp only [Bind.bind, Except.bind, Except.ok.injEq, Prod.mk.injEq] at h
          rw [← h.1, countExactRefs, countExactRefs]
          exact countRefsEntries_fixType_le kvs kvs' c1 X hl
theorem countRefsEntries_fixType_le : ∀ (kvs kvs' : List (String × Json)) (c : Nat)
    (X : String), fixTypeEntries kvs = .ok (kvs', c) →
    countExactRefsEntries kvs' X ≤ countExactRefsEntries kvs X
  | [], kvs', c, X, h => by
      simp only [fixTypeEntries, Except.ok.injEq, Prod.mk.injEq] at h
      rw [← h.1]
  | (k, v) :: rest, kvs', c, X, h => by
      rw [fixTypeEntries] at h
      by_cases hc : k = "type" ∧ v.isArr = true
      · rw [if_pos hc] at h
        cases ht : pickType v.arrElems with
        | error e => rw [ht] at h; simp [Bind.bind, Except.bind] at h
        | ok t =>
            rw [ht] at h
            cases hr : fixTypeEntries rest with
            | error e => rw [hr] at h; simp [Bind.bind, Except.bind] at h
            | ok pr =>
                obtain ⟨rest', c2⟩ := pr
                rw [hr] at h
                simp only [Bind.bind, Except.bind, Except.ok.injEq, Prod.mk.injEq] at h
                rw [← h.1, countExactRefsEntries, countExactRefsEntries]
                have hv : countExactRefs v X = countExactRefsList v.arrElems X := by
                  obtain ⟨l, rfl⟩ : ∃ l, v = Json.arr l := by
                    cases v <;> simp_all [Json.isArr]
                  rw [countExactRefs, Json.arrElems]
                have h1 := pickType_count_le (X := X) ht
                have h2 := countRefsEntries_fixType_le rest rest' c2 X hr
                have hi1 : (if ("type" : String) = "$ref" ∧ t = Json.str (refStr X)
                    then 1 else 0) = 0 := by
                  rw [if_neg (fun hb => by exact absurd hb.1 (by decide))]
                have hi2 : (if k = "$ref" ∧ v = Json.str (refStr X)
                    then 1 else 0) = 0 := by
                  rw [if_neg (fun hb => by
                    rw [hc.1] at hb
                    exact absurd hb.1 (by decide))]
                rw [hi1, hi2]
                omega
      · rw [if_neg hc] at h
        cases hfv : fix_type_arrays v with
        | error e => rw [hfv] at h; simp [Bind.bind, Except.bind] at h
        | ok pr1 =>
            obtain ⟨v', c1⟩ := pr1
            rw [hfv] at h
            cases hr : fixTypeEntries rest with
            | error e => rw [hr] at h; simp [Bind.bind, Except.bind] at h
            | ok pr =>
                obtain ⟨rest', c2⟩ := pr
                rw [hr] at h
                simp only [Bind.bind, Except.bind, Except.ok.injEq, Prod.mk.injEq] at h
                rw [← h.1, countExactRefsEntries, countExactRefsEntries]
                have h1 := countRefs_fixType_le v v' c1 X hfv
                have h2 := countRefsEntries_fixType_le rest rest' c2 X hr
                have hind : (if k = "$ref" ∧ v' = Json.str (refStr X) then 1 else 0) ≤
                    (if k = "$ref" ∧ v = Json.str (refStr X) then 1 else 0) := by
                  by_cases hb : k = "$ref" ∧ v' = Json.str (refStr X)
                  · rw [if_pos hb, if_pos ⟨hb.1, fixType_eq_str (hb.2 ▸ hfv)⟩]
                  · rw [if_neg hb]
                    exact Nat.zero_le _
                omega
theorem countRefsList_fixType_le : ∀ (xs xs' : List Json) (c : Nat) (X : String),
    fixTypeList xs = .ok (xs', c) →
    countExactRefsList xs' X ≤ countExactRefsList xs X
  | [], xs', c, X, h => by
      simp only [fixTypeList, Except.ok.injEq, Prod.mk.injEq] at h
      rw [← h.1]
  | x :: rest, xs', c, X, h => by
      rw [fixTypeList] at h
      cases hfv : fix_type_arrays x with
      | error e => rw [hfv] at h; simp [Bind.bind, Except.bind] at h
      | ok pr1 =>
          obtain ⟨x', c1⟩ := pr1
          rw [hfv] at h
          cases hr : fixTypeList rest with
          | error e => rw [hr] at h; simp [Bind.bind, Except.bind] at h
          | ok pr =>
              obtain ⟨rest', c2⟩ := pr
              rw [hr] at h
              simp only [Bind.bind, Except.bind, Except.ok.injEq, Prod.mk.injEq] at h
              rw [← h.1, countExactRefsList, countExactRefsList]
              have h1 := countRefs_fixType_le x x' c1 X hfv
              have h2 := countRefsList_fixType_le rest rest' c2 X hr
              omega
end

theorem processPair_removed {spec : Json} {d p : String}
    {kvs defs : List (String × Json)}
    (hs : fix_schema_references spec d p = .obj kvs)
    (hd : lookupKey kvs "definitions" = some (.obj defs))
    (hin : (keysOf defs).contains d = true) :
    processPair spec (d, p) =
      .ok (Json.obj (setKey kvs "definitions"
             (Json.obj (defs.filter (fun kv => kv.1 ≠ d)))),
           pairLogHead spec d p ++
             ["  Removed " ++ d ++ ", keeping " ++ p,
              "  Updated all references from " ++ d ++ " to " ++ p]) := by
  unfold processPair
  simp only [hs, hd, hin, if_true]

theorem processPair_warn {spec : Json} {d p : String}
    {kvs defs : List (String × Json)}
    (hs : fix_schema_references spec d p = .obj kvs)
    (hd : lookupKey kvs "definitions" = some (.obj defs))
    (hin : (keysOf defs).contains d = false) :
    processPair spec (d, p) =
      .ok (.obj kvs,
           pairLogHead spec d p ++
             ["  Warning: " ++ d ++ " not found in definitions!"]) := by
  unfold processPair
  simp only [hs, hd, hin, Bool.false_eq_true, if_false]

theorem processPair_ok_inv {spec : Json} {d p : String} {s' : Json}
    {log : List String} (h : processPair spec (d, p) = .ok (s', log)) :
    ∃ kvs defs, fix_schema_references spec d p = .obj kvs ∧
      lookupKey kvs "definitions" = some (.obj defs) ∧
      (((keysOf defs).contains d = true ∧
         s' = Json.obj (setKey kvs "definitions"
                (Json.obj (defs.filter (fun kv => kv.1 ≠ d))))) ∨
       ((keysOf defs).contains d = false ∧ s' = .obj kvs)) := by
  unfold processPair at h
  split at h
  · rename_i kvs hs
    split at h
    · rename_i defs hd
      split at h
      · rename_i hin
        simp only [Except.ok.injEq, Prod.mk.injEq] at h
        exact ⟨kvs, defs, hs, hd,
          Or.inl ⟨by simpa using hin, h.1.symm⟩⟩
      · rename_i hin
        simp only [Except.ok.injEq, Prod.mk.injEq] at h
        exact ⟨kvs, defs, hs, hd,
          Or.inr ⟨by simpa using hin, h.1.symm⟩⟩
    · simp at h
  · simp at h

theorem defsKeys_obj_some {kvs defs : List (String × Json)}
    (hd : lookupKey kvs "definitions" = some (.obj defs)) :
    defsKeys (.obj kvs) = keysOf defs := by
  rw [defsKeys, defsList, hd]

theorem defsKeys_fix (spec : Json) (d p : String) :
    defsKeys (fix_schema_references spec d p) = defsKeys spec := by
  cases spec with
  | null => rfl
  | bool b => rfl
  | num m => rfl
  | str s => rfl
  | arr xs => rfl
  | obj kvs =>
      have hfe : fix_schema_references (Json.obj kvs) d p =
          .obj (fixRefsEntries kvs d p) := by
        simp [fix_schema_references]
      rw [hfe, defsKeys, defsKeys, defsList, defsList, lookup_fixRefsEntries]
      cases hv : lookupKey kvs "definitions" with
      | none => rfl
      | some v =>
          simp only [Option.map_some']
          rw [if_neg (fun hb : ("definitions" : String) = "$ref" ∧ _ =>
            absurd hb.1 (by decide))]
          cases v with
          | obj defs =>
              have : fix_schema_references (Json.obj defs) d p =
                  .obj (fixRefsEntries defs d p) := by
                simp [fix_schema_references]
              rw [this]
              simp only [keysOf_fixRefsEntries]
          | null => rfl
          | bool b => rfl
          | num m => rfl
          | str s => rfl
          | arr ys => rfl

theorem processPair_dotted_removed {spec : Json} {d p : String} {s' : Json}
    {log : List String} (h : processPair spec (d, p) = .ok (s', log)) :
    d ∉ defsKeys s' := by
  obtain ⟨kvs, defs, hs, hd, hbr⟩ := processPair_ok_inv h
  rcases hbr with ⟨hin, rfl⟩ | ⟨hin, rfl⟩
  · rw [defsKeys_obj_some
      (lookupKey_setKey_some kvs (Json.obj (defs.filter (fun kv => kv.1 ≠ d)))
        (Json.obj defs) hd), keysOf_filter_ne]
    intro hm
    exact absurd ((List.mem_filter.mp hm).2) (by simp)
  · rw [defsKeys_obj_some hd]
    intro hm
    rw [← contains_keys_iff] at hm
    rw [hm] at hin
    simp at hin

theorem processPair_keys_sub {spec : Json} {d p : String} {s' : Json}
    {log : List String} (h : processPair spec (d, p) = .ok (s', log)) :
    ∀ X, X ∈ defsKeys s' → X ∈ defsKeys spec := by
  obtain ⟨kvs, defs, hs, hd, hbr⟩ := processPair_ok_inv h
  have hbase : defsKeys (.obj kvs) = defsKeys spec := by
    rw [← hs, defsKeys_fix]
  have hkvs : defsKeys (Json.obj kvs) = keysOf defs := defsKeys_obj_some hd
  intro X hm
  rcases hbr with ⟨hin, rfl⟩ | ⟨hin, rfl⟩
  · rw [defsKeys_obj_some
      (lookupKey_setKey_some kvs (Json.obj (defs.filter (fun kv => kv.1 ≠ d)))
        (Json.obj defs) hd), keysOf_filter_ne] at hm
    rw [← hbase, hkvs]
    exact (List.mem_filter.mp hm).1
  · exact hbase ▸ hm

theorem processPair_keys_kept {spec : Json} {d p : String} {s' : Json}
    {log : List String} (h : processPair spec (d, p) = .ok (s', log)) :
    ∀ X, X ∈ defsKeys spec → X ≠ d → X ∈ defsKeys s' := by
  obtain ⟨kvs, defs, hs, hd, hbr⟩ := processPair_ok_inv h
  have hbase : defsKeys (.obj kvs) = defsKeys spec := by
    rw [← hs, defsKeys_fix]
  have hkvs : defsKeys (Json.obj kvs) = keysOf defs := defsKeys_obj_some hd
  intro X hm hne
  have hmk : X ∈ keysOf defs := by rw [← hkvs, hbase]; exact hm
  rcases hbr with ⟨hin, rfl⟩ | ⟨hin, rfl⟩
  · rw [defsKeys_obj_some
      (lookupKey_setKey_some kvs (Json.obj (defs.filter (fun kv => kv.1 ≠ d)))
        (Json.obj defs) hd), keysOf_filter_ne]
    exact List.mem_filter.mpr ⟨hmk, by simpa using hne⟩
  · rw [defsKeys_obj_some hd]
    exact hmk

theorem processLoop_cons_inv {spec : Json} {pr : String × String}
    {pairs : List (String × String)} {s : Json} {log : List String}
    (h : processLoop spec (pr :: pairs) = .ok (s, log)) :
    ∃ s1 l1 l2, processPair spec pr = .ok (s1, l1) ∧
      processLoop s1 pairs = .ok (s, l2) ∧ log = l1 ++ l2 := by
  rw [processLoop] at h
  obtain ⟨a, ha, h2⟩ := except_bind_ok h
  obtain ⟨s1, l1⟩ := a
  obtain ⟨b, hb, h3⟩ := except_bind_ok h2
  obtain ⟨s2, l2⟩ := b
  simp only [Except.ok.injEq, Prod.mk.injEq] at h3
  exact ⟨s1, l1, l2, ha, h3.1 ▸ hb, h3.2.symm⟩

theorem loop_keys_sub {pairs : List (String × String)} :
    ∀ {spec s : Json} {log : List String},
      processLoop spec pairs = .ok (s, log) →
      ∀ X, X ∈ defsKeys s → X ∈ defsKeys spec := by
  induction pairs with
  | nil =>
      intro spec s log h X hm
      rw [processLoop] at h
      simp only [Except.ok.injEq, Prod.mk.injEq] at h
      exact h.1 ▸ hm
  | cons pr rest ih =>
      intro spec s log h X hm
      obtain ⟨s1, l1, l2, h1, h2, -⟩ := processLoop_cons_inv h
      obtain ⟨d, p⟩ := pr
      exact processPair_keys_sub h1 X (ih h2 X hm)

theorem loop_dotted_removed {pairs : List (String × String)} :
    ∀ {spec s : Json} {log : List String} {d p : String},
      (d, p) ∈ pairs → processLoop spec pairs = .ok (s, log) →
      d ∉ defsKeys s := by
  induction pairs with
  | nil => intro spec s log d p hm; simp at hm
  | cons pr rest ih =>
      intro spec s log d p hm h
      obtain ⟨s1, l1, l2, h1, h2, -⟩ := processLoop_cons_inv h
      rcases List.mem_cons.mp hm with rfl | hm
      · intro hms
        exact processPair_dotted_removed h1 (loop_keys_sub h2 d hms)
      · exact ih hm h2

theorem loop_keys_kept {pairs : List (String × String)} :
    ∀ {spec s : Json} {log : List String} {X : String},
      (∀ pr ∈ pairs, X ≠ pr.1) → X ∈ defsKeys spec →
      processLoop spec pairs = .ok (s, log) → X ∈ defsKeys s := by
  induction pairs with
  | nil =>
      intro spec s log X hne hm h
      rw [processLoop] at h
      simp only [Except.ok.injEq, Prod.mk.injEq] at h
      exact h.1 ▸ hm
  | cons pr rest ih =>
      intro spec s log X hne hm h
      obtain ⟨s1, l1, l2, h1, h2, -⟩ := processLoop_cons_inv h
      obtain ⟨d, p⟩ := pr
      have hm1 : X ∈ defsKeys s1 :=
        processPair_keys_kept h1 X hm (hne (d, p) (List.mem_cons_self _ _))
      exact ih (fun q hq => hne q (List.mem_cons_of_mem _ hq)) hm1 h2

theorem find_pairs_props {defs : List (String × Json)} {d p : String}
    (h : (d, p) ∈ find_duplicate_schemas defs) :
    hasDot d = true ∧ hasDot p = false ∧ d ∈ keysOf defs ∧
      p ∈ keysOf defs ∧ p = removeDots d := by
  obtain ⟨hk, h1, h2, rfl⟩ := (mem_find_duplicate_schemas defs d p).mp h
  exact ⟨h1, hasDot_removeDots d, hk, (contains_keys_iff _ _).mp h2, rfl⟩

theorem countRefsEntries_lookup_zero {kvs : List (String × Json)} {X k : String}
    {v : Json} (h : countExactRefsEntries kvs X = 0)
    (hl : lookupKey kvs k = some v) : countExactRefs v X = 0 := by
  induction kvs with
  | nil => simp [lookupKey] at hl
  | cons kv rest ih =>
      obtain ⟨k1, v1⟩ := kv
      rw [countExactRefsEntries] at h
      rw [lookupKey] at hl
      by_cases hk : k1 = k
      · rw [if_pos hk] at hl
        obtain rfl : v1 = v := Option.some.inj hl
        omega
      · rw [if_neg hk] at hl
        exact ih (by omega) hl

theorem countRefsEntries_filter_zero {defs : List (String × Json)} {X : String}
    (q : String × Json → Bool) (h : countExactRefsEntries defs X = 0) :
    countExactRefsEntries (defs.filter q) X = 0 := by
  induction defs with
  | nil => simp [countExactRefsEntries]
  | cons kv rest ih =>
      rw [countExactRefsEntries] at h
      obtain ⟨k1, v1⟩ := kv
      by_cases hq : q (k1, v1) = true
      · rw [List.filter_cons_of_pos hq, countExactRefsEntries]
        rw [ih (by omega)]
        dsimp only at h ⊢
        omega
      · rw [List.filter_cons_of_neg (by simpa using hq)]
        exact ih (by omega)

theorem countRefsEntries_setKey_zero {kvs : List (String × Json)} {X key : String}
    {w : Json} (h : countExactRefsEntries kvs X = 0) (hw : countExactRefs w X = 0)
    (hnr : ¬(key = "$ref" ∧ w = Json.str (refStr X))) :
    countExactRefsEntries (setKey kvs key w) X = 0 := by
  induction kvs with
  | nil => simp [setKey, countExactRefsEntries]
  | cons kv rest ih =>
      obtain ⟨k1, v1⟩ := kv
      rw [countExactRefsEntries] at h
      by_cases hk : k1 = key
      · rw [setKey, if_pos hk, countExactRefsEntries, if_neg hnr, hw,
          ih (by omega)]
      · rw [setKey, if_neg hk, countExactRefsEntries, ih (by omega)]
        omega

theorem countRefs_prune_zero {kvs defs : List (String × Json)} {X d : String}
    (h : countExactRefs (.obj kvs) X = 0)
    (hd : lookupKey kvs "definitions" = some (.obj defs)) :
    countExactRefs (Json.obj (setKey kvs "definitions"
      (Json.obj (defs.filter (fun kv => kv.1 ≠ d))))) X = 0 := by
  rw [countExactRefs] at h
  have hdv : countExactRefs (Json.obj defs) X = 0 :=
    countRefsEntries_lookup_zero h hd
  rw [countExactRefs] at hdv
  rw [countExactRefs]
  exact countRefsEntries_setKey_zero h
    (by rw [countExactRefs]; exact countRefsEntries_filter_zero _ hdv)
    (fun hb => by cases hb.2)

theorem processPair_norefs_init {spec : Json} {d p : String} {s' : Json}
    {log : List String} (h : processPair spec (d, p) = .ok (s', log))
    (hdp : d ≠ p) : countExactRefs s' d = 0 := by
  obtain ⟨kvs, defs, hs, hd, hbr⟩ := processPair_ok_inv h
  have hz : countExactRefs (Json.obj kvs) d = 0 := by
    rw [← hs]
    exact countRefs_fix_self spec d p hdp
  rcases hbr with ⟨hin, rfl⟩ | ⟨hin, rfl⟩
  · exact countRefs_prune_zero hz hd
  · exact hz

theorem processPair_norefs_pres {spec : Json} {d' p' X : String} {s' : Json}
    {log : List String} (h : processPair spec (d', p') = .ok (s', log))
    (hX : X ≠ p') (hz : countExactRefs spec X = 0) : countExactRefs s' X = 0 := by
  obtain ⟨kvs, defs, hs, hd, hbr⟩ := processPair_ok_inv h
  have hz1 : countExactRefs (Json.obj kvs) X = 0 := by
    rw [← hs]
    exact countRefs_fix_preserve spec d' p' X hX hz
  rcases hbr with ⟨hin, rfl⟩ | ⟨hin, rfl⟩
  · exact countRefs_prune_zero hz1 hd
  · exact hz1

theorem loop_norefs_pres {pairs : List (String × String)} :
    ∀ {spec s : Json} {log : List String} {X : String},
      (∀ pr ∈ pairs, X ≠ pr.2) → countExactRefs spec X = 0 →
      processLoop spec pairs = .ok (s, log) → countExactRefs s X = 0 := by
  induction pairs with
  | nil =>
      intro spec s log X hne hz h
      rw [processLoop] at h
      simp only [Except.ok.injEq, Prod.mk.injEq] at h
      exact h.1 ▸ hz
  | cons pr rest ih =>
      intro spec s log X hne hz h
      obtain ⟨s1, l1, l2, h1, h2, -⟩ := processLoop_cons_inv h
      obtain ⟨d1, p1⟩ := pr
      have hz1 : countExactRefs s1 X = 0 :=
        processPair_norefs_pres h1 (hne (d1, p1) (List.mem_cons_self _ _)) hz
      exact ih (fun q hq => hne q (List.mem_cons_of_mem _ hq)) hz1 h2

theorem loop_norefs {pairs : List (String × String)} :
    ∀ {spec s : Json} {log : List String} {d p : String},
      (d, p) ∈ pairs → hasDot d = true → (∀ pr ∈ pairs, hasDot pr.2 = false) →
      processLoop spec pairs = .ok (s, log) → countExactRefs s d = 0 := by
  induction pairs with
  | nil => intro spec s log d p hm; simp at hm
  | cons pr rest ih =>
      intro spec s log d p hm hdot hvalid h
      obtain ⟨s1, l1, l2, h1, h2, -⟩ := processLoop_cons_inv h
      rcases List.mem_cons.mp hm with rfl | hm
      · have hdp : d ≠ p :=
          ne_of_dot d p hdot (hvalid (d, p) (List.mem_cons_self _ _))
        have hz1 : countExactRefs s1 d = 0 := processPair_norefs_init h1 hdp
        refine loop_norefs_pres (fun q hq => ?_) hz1 h2
        exact ne_of_dot d q.2 hdot (hvalid q (List.mem_cons_of_mem _ hq))
      · exact ih hm hdot (fun q hq => hvalid q (List.mem_cons_of_mem _ hq)) h2

theorem getPath_filter_scalar {defs : List (String × Json)} {d : String}
    (P : List PathElem) (v : Json) (hs : v.isScalar = true)
    (hp : getPath (.obj defs) P = some v) :
    getPath (Json.obj (defs.filter (fun kv => kv.1 ≠ d))) P = some v ∨
      getPath (Json.obj (defs.filter (fun kv => kv.1 ≠ d))) P = none := by
  cases P with
  | nil =>
      simp only [getPath, Option.some.injEq] at hp
      rw [← hp] at hs
      simp [Json.isScalar] at hs
  | cons e rest =>
      rw [getPath] at hp ⊢
      cases e with
      | key k =>
          simp only [Json.childAt] at hp ⊢
          rw [lookupKey_filter_ne]
          by_cases hk : k = d
          · rw [if_pos hk]
            right
            rfl
          · rw [if_neg hk]
            left
            exact hp
      | idx i => simp [Json.childAt] at hp

theorem getPath_filter_none {defs : List (String × Json)} {d : String}
    (P : List PathElem) (hp : getPath (.obj defs) P = none) :
    getPath (Json.obj (defs.filter (fun kv => kv.1 ≠ d))) P = none := by
  cases P with
  | nil => simp [getPath] at hp
  | cons e rest =>
      rw [getPath] at hp ⊢
      cases e with
      | key k =>
          simp only [Json.childAt] at hp ⊢
          rw [lookupKey_filter_ne]
          by_cases hk : k = d
          · rw [if_pos hk]
            rfl
          · rw [if_neg hk]
            exact hp
      | idx i => simp [Json.childAt]

theorem getPath_prune_scalar {kvs defs : List (String × Json)} {d : String}
    (hd : lookupKey kvs "definitions" = some (.obj defs))
    (P : List PathElem) (v : Json) (hs : v.isScalar = true)
    (hp : getPath (.obj kvs) P = some v) :
    getPath (Json.obj (setKey kvs "definitions"
        (Json.obj (defs.filter (fun kv => kv.1 ≠ d))))) P = some v ∨
      getPath (Json.obj (setKey kvs "definitions"
        (Json.obj (defs.filter (fun kv => kv.1 ≠ d))))) P = none := by
  cases P with
  | nil =>
      simp only [getPath, Option.some.injEq] at hp
      rw [← hp] at hs
      simp [Json.isScalar] at hs
  | cons e rest =>
      rw [getPath] at hp ⊢
      cases e with
      | key k =>
          simp only [Json.childAt] at hp ⊢
          by_cases hk : k = "definitions"
          · subst hk
            rw [hd] at hp
            rw [lookupKey_setKey_some kvs _ (Json.obj defs) hd]
            simp only [Option.some_bind] at hp ⊢
            exact getPath_filter_scalar rest v hs hp
          · rw [lookupKey_setKey_ne kvs _ (fun he => hk he)]
            exact Or.inl hp
      | idx i => simp [Json.childAt] at hp

theorem getPath_prune_none {kvs defs : List (String × Json)} {d : String}
    (hd : lookupKey kvs "definitions" = some (.obj defs))
    (P : List PathElem) (hp : getPath (.obj kvs) P = none) :
    getPath (Json.obj (setKey kvs "definitions"
      (Json.obj (defs.filter (fun kv => kv.1 ≠ d))))) P = none := by
  cases P with
  | nil => simp [getPath] at hp
  | cons e rest =>
      rw [getPath] at hp ⊢
      cases e with
      | key k =>
          simp only [Json.childAt] at hp ⊢
          by_cases hk : k = "definitions"
          · subst hk
            rw [hd] at hp
            rw [lookupKey_setKey_some kvs _ (Json.obj defs) hd]
            simp only [Option.some_bind] at hp ⊢
            exact getPath_filter_none rest hp
          · rw [lookupKey_setKey_ne kvs _ (fun he => hk he)]
            exact hp
      | idx i => simp [Json.childAt]

theorem processPair_path_none {spec : Json} {d p : String} {s' : Json}
    {log : List String} (h : processPair spec (d, p) = .ok (s', log))
    (P : List PathElem) (hp : getPath spec P = none) : getPath s' P = none := by
  obtain ⟨kvs, defs, hs, hd, hbr⟩ := processPair_ok_inv h
  have hfix : getPath (.obj kvs) P = none := by
    rw [← hs]
    exact getPath_fix_none d p P spec hp
  rcases hbr with ⟨hin, rfl⟩ | ⟨hin, rfl⟩
  · exact getPath_prune_none hd P hfix
  · exact hfix

theorem processPair_path_scalar {spec : Json} {d p : String} {s' : Json}
    {log : List String} (h : processPair spec (d, p) = .ok (s', log))
    (P : List PathElem) (v : Json) (hs : v.isScalar = true)
    (hp : getPath spec P = some v) :
    getPath s' P =
        some (if P.getLast? = some (.key "$ref") ∧ v = .str (refStr d)
              then Json.str (refStr p) else v) ∨
      getPath s' P = none := by
  obtain ⟨kvs, defs, hks, hd, hbr⟩ := processPair_ok_inv h
  have hfix : getPath (.obj kvs) P =
      some (if P.getLast? = some (.key "$ref") ∧ v = .str (refStr d)
            then Json.str (refStr p) else v) := by
    rw [← hks]
    exact getPath_fix_scalar d p P spec v hp hs
  have hsc : (if P.getLast? = some (.key "$ref") ∧ v = .str (refStr d)
      then Json.str (refStr p) else v).isScalar = true := by
    by_cases hc : P.getLast? = some (PathElem.key "$ref") ∧ v = .str (refStr d)
    · rw [if_pos hc]
      rfl
    · rw [if_neg hc]
      exact hs
  rcases hbr with ⟨hin, rfl⟩ | ⟨hin, rfl⟩
  · exact getPath_prune_scalar hd P _ hsc hfix
  · exact Or.inl hfix

theorem loop_path_none {pairs : List (String × String)} :
    ∀ {spec s : Json} {log : List String} (P : List PathElem),
      processLoop spec pairs = .ok (s, log) → getPath spec P = none →
      getPath s P = none := by
  induction pairs with
  | nil =>
      intro spec s log P h hp
      rw [processLoop] at h
      simp only [Except.ok.injEq, Prod.mk.injEq] at h
      exact h.1 ▸ hp
  | cons pr rest ih =>
      intro spec s log P h hp
      obtain ⟨s1, l1, l2, h1, h2, -⟩ := processLoop_cons_inv h
      obtain ⟨d1, p1⟩ := pr
      exact ih P h2 (processPair_path_none h1 P hp)

theorem loop_ref_stable {pairs : List (String × String)} :
    ∀ {spec s : Json} {log : List String} {q : String} (P : List PathElem),
      hasDot q = false → (∀ pr ∈ pairs, hasDot pr.1 = true) →
      getPath spec P = some (.str (refStr q)) →
      processLoop spec pairs = .ok (s, log) →
      getPath s P = some (.str (refStr q)) ∨ getPath s P = none := by
  induction pairs with
  | nil =>
      intro spec s log q P hq hvalid hp h
      rw [processLoop] at h
      simp only [Except.ok.injEq, Prod.mk.injEq] at h
      exact Or.inl (h.1 ▸ hp)
  | cons pr rest ih =>
      intro spec s log q P hq hvalid hp h
      obtain ⟨s1, l1, l2, h1, h2, -⟩ := processLoop_cons_inv h
      obtain ⟨d1, p1⟩ := pr
      have hne : ¬(P.getLast? = some (PathElem.key "$ref") ∧
          Json.str (refStr q) = .str (refStr d1)) := by
        rintro ⟨-, he⟩
        have : q = d1 := refStr_inj (Json.str.inj he)
        have hd1 : hasDot d1 = true := hvalid (d1, p1) (List.mem_cons_self _ _)
        rw [← this, hq] at hd1
        simp at hd1
      rcases processPair_path_scalar h1 P (.str (refStr q)) rfl hp with h3 | h3
      · rw [if_neg hne] at h3
        exact ih P hq (fun pr hpr => hvalid pr (List.mem_cons_of_mem _ hpr)) h3 h2
      · exact Or.inr (loop_path_none P h2 h3)

theorem loop_dotted_ref {pairs : List (String × String)} :
    ∀ {spec s : Json} {log : List String} {d p : String} (P : List PathElem),
      (d, p) ∈ pairs →
      (∀ pr ∈ pairs, hasDot pr.1 = true ∧ pr.2 = removeDots pr.1) →
      P.getLast? = some (PathElem.key "$ref") →
      getPath spec P = some (.str (refStr d)) →
      processLoop spec pairs = .ok (s, log) →
      getPath s P = some (.str (refStr p)) ∨ getPath s P = none := by
  induction pairs with
  | nil => intro spec s log d p P hm; simp at hm
  | cons pr rest ih =>
      intro spec s log d p P hm hvalid hlast hp h
      obtain ⟨s1, l1, l2, h1, h2, -⟩ := processLoop_cons_inv h
      obtain ⟨d1, p1⟩ := pr
      by_cases hdd : d1 = d
      · subst hdd
        have hp1 : p1 = p := by
          rcases List.mem_cons.mp hm with he | hm2
          · exact (congrArg Prod.snd he).symm
          · have hv1 := (hvalid (d1, p1) (List.mem_cons_self _ _)).2
            have hv2 := (hvalid (d1, p) (List.mem_cons_of_mem _ hm2)).2
            dsimp only at hv1 hv2
            rw [hv1, hv2]
        subst hp1
        rcases processPair_path_scalar h1 P (.str (refStr d1)) rfl hp with h3 | h3
        · rw [if_pos ⟨hlast, rfl⟩] at h3
          have hqd : hasDot p1 = false := by
            have hv := (hvalid (d1, p1) (List.mem_cons_self _ _)).2
            dsimp only at hv
            rw [hv]
            exact hasDot_removeDots d1
          exact loop_ref_stable P hqd
            (fun pr hpr => (hvalid pr (List.mem_cons_of_mem _ hpr)).1) h3 h2
        · exact Or.inr (loop_path_none P h2 h3)
      · have hm2 : (d, p) ∈ rest := by
          rcases List.mem_cons.mp hm with he | hm2
          · exact absurd (congrArg Prod.fst he).symm hdd
          · exact hm2
        have hne : ¬(P.getLast? = some (PathElem.key "$ref") ∧
            Json.str (refStr d) = .str (refStr d1)) := by
          rintro ⟨-, he⟩
          exact hdd (refStr_inj (Json.str.inj he)).symm
        rcases processPair_path_scalar h1 P (.str (refStr d)) rfl hp with h3 | h3
        · rw [if_neg hne] at h3
          exact ih P hm2 (fun pr hpr => hvalid pr (List.mem_cons_of_mem _ hpr))
            hlast h3 h2
        · exact Or.inr (loop_path_none P h2 h3)

theorem pipeline_ok_inv {spec out : Json} {log : List String} {c : Nat}
    (h : fix_openapi_duplicates spec = .ok (out, log, c)) :
    ∃ defs s1, getDefinitions spec = .ok defs ∧
      processLoop spec (find_duplicate_schemas defs) = .ok (s1, log) ∧
      fix_type_arrays s1 = .ok (out, c) := by
  rw [fix_openapi_duplicates] at h
  obtain ⟨defs, hdefs, h2⟩ := except_bind_ok h
  obtain ⟨a, ha, h3⟩ := except_bind_ok h2
  obtain ⟨s1, log1⟩ := a
  obtain ⟨b, hb, h4⟩ := except_bind_ok h3
  obtain ⟨s2, c1⟩ := b
  simp only [Except.ok.injEq, Prod.mk.injEq] at h4
  obtain ⟨h5, h6, h7⟩ := h4
  exact ⟨defs, s1, hdefs, h6 ▸ ha, by rw [hb, h5, h7]⟩

theorem defsKeys_fixType {s1 out : Json} {c : Nat}
    (h : fix_type_arrays s1 = .ok (out, c)) : defsKeys out = defsKeys s1 := by
  cases s1 with
  | null =>
      simp only [fix_type_arrays, Except.ok.injEq, Prod.mk.injEq] at h
      rw [← h.1]
  | bool b =>
      simp only [fix_type_arrays, Except.ok.injEq, Prod.mk.injEq] at h
      rw [← h.1]
  | num m =>
      simp only [fix_type_arrays, Except.ok.injEq, Prod.mk.injEq] at h
      rw [← h.1]
  | str s =>
      simp only [fix_type_arrays, Except.ok.injEq, Prod.mk.injEq] at h
      rw [← h.1]
  | arr xs =>
      rw [fix_type_arrays] at h
      cases hl : fixTypeList xs with
      | error e => rw [hl] at h; simp [Bind.bind, Except.bind] at h
      | ok pr =>
          rw [hl] at h
          simp only [Bind.bind, Except.bind, Except.ok.injEq, Prod.mk.injEq] at h
          rw [← h.1]
          rfl
  | obj kvs =>
      obtain ⟨kvs', rfl, he⟩ := fixType_obj_inv h
      cases hv : lookupKey kvs "definitions" with
      | none =>
          have hn : lookupKey kvs' "definitions" = none := by
            rw [lookupKey_eq_none_iff] at hv ⊢
            rw [fixTypeEntries_keys he]
            exact hv
          rw [defsKeys, defsKeys, defsList, defsList, hv, hn]
      | some v =>
          obtain ⟨v', c', hl', hfv⟩ :=
            lookup_fixTypeEntries he "definitions" (by decide) v hv
          cases v with
          | obj defs =>
              obtain ⟨defs2, rfl, he2⟩ := fixType_obj_inv hfv
              rw [defsKeys_obj_some hl', defsKeys_obj_some hv]
              exact fixTypeEntries_keys he2
          | null =>
              simp only [fix_type_arrays, Except.ok.injEq, Prod.mk.injEq] at hfv
              rw [defsKeys, defsKeys, defsList, defsList, hv, hl', ← hfv.1]
          | bool b =>
              simp only [fix_type_arrays, Except.ok.injEq, Prod.mk.injEq] at hfv
              rw [defsKeys, defsKeys, defsList, defsList, hv, hl', ← hfv.1]
          | num m =>
              simp only [fix_type_arrays, Except.ok.injEq, Prod.mk.injEq] at hfv
              rw [defsKeys, defsKeys, defsList, defsList, hv, hl', ← hfv.1]
          | str s =>
              simp only [fix_type_arrays, Except.ok.injEq, Prod.mk.injEq] at hfv
              rw [defsKeys, defsKeys, defsList, defsList, hv, hl', ← hfv.1]
          | arr ys =>
              rw [fix_type_arrays] at hfv
              cases hl2 : fixTypeList ys with
              | error e => rw [hl2] at hfv; simp [Bind.bind, Except.bind] at hfv
              | ok pr =>
                  rw [hl2] at hfv
                  simp only [Bind.bind, Except.bind, Except.ok.injEq,
                    Prod.mk.injEq] at hfv
                  rw [defsKeys, defsKeys, defsList, defsList, hv, hl', ← hfv.1]

theorem fix_isScalar (v : Json) (o n : String) :
    (fix_schema_references v o n).isScalar = v.isScalar := by
  cases v <;> simp [fix_schema_references, Json.isScalar]

theorem fixRefsList_all_scalar {l : List Json} {o n : String}
    (h : l.all Json.isScalar = true) :
    (fixRefsList l o n).all Json.isScalar = true := by
  induction l with
  | nil => rfl
  | cons x rest ih =>
      simp only [List.all_cons, Bool.and_eq_true] at h
      rw [fixRefsList, List.all_cons, fix_isScalar, h.1, ih h.2]
      rfl

theorem typeValueOK_fix {v : Json} (o n : String) (h : typeValueOK v = true) :
    typeValueOK (fix_schema_references v o n) = true := by
  cases v with
  | arr l =>
      rw [typeValueOK] at h ⊢
      simp only [Json.isArr, Json.arrElems, Bool.not_true, Bool.false_or] at h
      have hfx : fix_schema_references (Json.arr l) o n = .arr (fixRefsList l o n) := by
        simp [fix_schema_references]
      rw [hfx]
      simp only [Json.isArr, Json.arrElems, Bool.not_true, Bool.false_or,
        Bool.and_eq_true] at h ⊢
      refine ⟨?_, fixRefsList_all_scalar h.2⟩
      rw [fixRefsList_eq_map]
      simpa using h.1
  | null => rfl
  | bool b => rfl
  | num m => rfl
  | str s => rfl
  | obj kvs => simp [fix_schema_references, typeValueOK, Json.isArr]

mutual
theorem GoodTypes_fix : ∀ (j : Json) (o n : String), GoodTypes j = true →
    GoodTypes (fix_schema_references j o n) = true
  | .null, _, _, _ => rfl
  | .bool _, _, _, _ => rfl
  | .num _, _, _, _ => rfl
  | .str _, _, _, _ => rfl
  | .arr xs, o, n, h => by
      rw [fix_schema_references, GoodTypes,
        goodTypesList_fix xs o n (by simpa [GoodTypes] using h)]
  | .obj kvs, o, n, h => by
      rw [fix_schema_references, GoodTypes,
        goodTypesEntries_fix kvs o n (by simpa [GoodTypes] using h)]
theorem goodTypesEntries_fix : ∀ (kvs : List (String × Json)) (o n : String),
    goodTypesEntries kvs = true → goodTypesEntries (fixRefsEntries kvs o n) = true
  | [], _, _, _ => rfl
  | (k, v) :: rest, o, n, h => by
      simp only [goodTypesEntries, Bool.and_eq_true] at h
      obtain ⟨⟨hok, hv⟩, hrest⟩ := h
      by_cases hc : k = "$ref" ∧ v = .str (refStr o)
      · rw [fixRefsEntries, if_pos hc, goodTypesEntries,
          goodTypesEntries_fix rest o n hrest]
        simp [typeValueOK, GoodTypes, Json.isArr]
      · rw [fixRefsEntries, if_neg hc, goodTypesEntries,
          goodTypesEntries_fix rest o n hrest, GoodTypes_fix v o n hv]
        cases hx : (!(k == "type")) with
        | true => simp
        | false =>
            rw [hx, Bool.false_or] at hok
            rw [typeValueOK_fix o n hok]
            simp
theorem goodTypesList_fix : ∀ (xs : List Json) (o n : String),
    goodTypesList xs = true → goodTypesList (fixRefsList xs o n) = true
  | [], _, _, _ => rfl
  | x :: rest, o, n, h => by
      simp only [goodTypesList, Bool.and_eq_true] at h
      rw [fixRefsList, goodTypesList, GoodTypes_fix x o n h.1,
        goodTypesList_fix rest o n h.2]
      rfl
end

theorem goodTypesEntries_lookup {kvs : List (String × Json)} {k : String}
    {v : Json} (h : goodTypesEntries kvs = true)
    (hl : lookupKey kvs k = some v) : GoodTypes v = true := by
  induction kvs with
  | nil => simp [lookupKey] at hl
  | cons kv rest ih =>
      obtain ⟨k1, v1⟩ := kv
      simp only [goodTypesEntries, Bool.and_eq_true] at h
      rw [lookupKey] at hl
      by_cases hk : k1 = k
      · rw [if_pos hk] at hl
        exact Option.some.inj hl ▸ h.1.2
      · rw [if_neg hk] at hl
        exact ih h.2 hl

theorem goodTypesEntries_filter {kvs : List (String × Json)}
    (q : String × Json → Bool) (h : goodTypesEntries kvs = true) :
    goodTypesEntries (kvs.filter q) = true := by
  induction kvs with
  | nil => rfl
  | cons kv rest ih =>
      obtain ⟨k1, v1⟩ := kv
      simp only [goodTypesEntries, Bool.and_eq_true] at h
      by_cases hq : q (k1, v1) = true
      · rw [List.filter_cons_of_pos hq, goodTypesEntries, ih h.2]
        simp only [h.1.1, h.1.2]
        rfl
      · rw [List.filter_cons_of_neg (by simpa using hq)]
        exact ih h.2

theorem goodTypesEntries_setKey {kvs : List (String × Json)} {key : String}
    {w : Json} (h : goodTypesEntries kvs = true)
    (hw : GoodTypes w = true)
    (hcond : (!(key == "type") || typeValueOK w) = true) :
    goodTypesEntries (setKey kvs key w) = true := by
  induction kvs with
  | nil => rfl
  | cons kv rest ih =>
      obtain ⟨k1, v1⟩ := kv
      simp only [goodTypesEntries, Bool.and_eq_true] at h
      by_cases hk : k1 = key
      · rw [setKey, if_pos hk, goodTypesEntries, ih h.2, hw, hcond]
        rfl
      · rw [setKey, if_neg hk, goodTypesEntries, ih h.2]
        simp only [h.1.1, h.1.2]
        rfl

theorem processPair_GoodTypes {spec : Json} {d p : String} {s' : Json}
    {log : List String} (h : processPair spec (d, p) = .ok (s', log))
    (hg : GoodTypes spec = true) : GoodTypes s' = true := by
  obtain ⟨kvs, defs, hs, hd, hbr⟩ := processPair_ok_inv h
  have hg1 : GoodTypes (Json.obj kvs) = true := by
    rw [← hs]
    exact GoodTypes_fix spec d p hg
  rw [GoodTypes] at hg1
  rcases hbr with ⟨hin, rfl⟩ | ⟨hin, rfl⟩
  · have hdefs : GoodTypes (Json.obj defs) = true :=
      goodTypesEntries_lookup hg1 hd
    rw [GoodTypes] at hdefs
    rw [GoodTypes]
    refine goodTypesEntries_setKey hg1 ?_ (by rfl)
    rw [GoodTypes]
    exact goodTypesEntries_filter _ hdefs
  · rw [GoodTypes]
    exact hg1

theorem loop_GoodTypes {pairs : List (String × String)} :
    ∀ {spec s : Json} {log : List String},
      GoodTypes spec = true → processLoop spec pairs = .ok (s, log) →
      GoodTypes s = true := by
  induction pairs with
  | nil =>
      intro spec s log hg h
      rw [processLoop] at h
      simp only [Except.ok.injEq, Prod.mk.injEq] at h
      exact h.1 ▸ hg
  | cons pr rest ih =>
      intro spec s log hg h
      obtain ⟨s1, l1, l2, h1, h2, -⟩ := processLoop_cons_inv h
      obtain ⟨d1, p1⟩ := pr
      exact ih (processPair_GoodTypes h1 hg) h2

theorem getDefinitions_defsKeys {spec : Json} {defs : List (String × Json)}
    (h : getDefinitions spec = .ok defs) : defsKeys spec = keysOf defs := by
  cases spec with
  | obj kvs =>
      rw [getDefinitions] at h
      cases hv : lookupKey kvs "definitions" with
      | none =>
          rw [hv] at h
          obtain rfl : ([] : List (String × Json)) = defs := Except.ok.inj h
          rw [defsKeys, defsList, hv]
          rfl
      | some v =>
          rw [hv] at h
          cases v with
          | obj defs0 =>
              obtain rfl : defs0 = defs := Except.ok.inj h
              exact defsKeys_obj_some hv
          | null => simp at h
          | bool b => simp at h
          | num m => simp at h
          | str s => simp at h
          | arr xs => simp at h
  | null => simp [getDefinitions] at h
  | bool b => simp [getDefinitions] at h
  | num m => simp [getDefinitions] at h
  | str s => simp [getDefinitions] at h
  | arr xs => simp [getDefinitions] at h

theorem processPair_getDefinitions {spec : Json} {d p : String} {s' : Json}
    {log : List String} (h : processPair spec (d, p) = .ok (s', log)) :
    ∃ defs', getDefinitions s' = .ok defs' := by
  obtain ⟨kvs, defs, hs, hd, hbr⟩ := processPair_ok_inv h
  rcases hbr with ⟨hin, rfl⟩ | ⟨hin, rfl⟩
  · refine ⟨defs.filter (fun kv => kv.1 ≠ d), ?_⟩
    rw [getDefinitions,
      lookupKey_setKey_some kvs _ (Json.obj defs) hd]
  · exact ⟨defs, by rw [getDefinitions, hd]⟩

theorem loop_getDefinitions {pairs : List (String × String)} :
    ∀ {spec s : Json} {log : List String} {defs : List (String × Json)},
      getDefinitions spec = .ok defs →
      processLoop spec pairs = .ok (s, log) →
      ∃ defs', getDefinitions s = .ok defs' := by
  induction pairs with
  | nil =>
      intro spec s log defs hg h
      rw [processLoop] at h
      simp only [Except.ok.injEq, Prod.mk.injEq] at h
      exact ⟨defs, h.1 ▸ hg⟩
  | cons pr rest ih =>
      intro spec s log defs hg h
      obtain ⟨s1, l1, l2, h1, h2, -⟩ := processLoop_cons_inv h
      obtain ⟨d1, p1⟩ := pr
      obtain ⟨defs1, hg1⟩ := processPair_getDefinitions h1
      exact ih hg1 h2

theorem fixType_getDefinitions {s1 out : Json} {c : Nat}
    {defs1 : List (String × Json)} (hg : getDefinitions s1 = .ok defs1)
    (h : fix_type_arrays s1 = .ok (out, c)) :
    ∃ defsOut, getDefinitions out = .ok defsOut := by
  cases s1 with
  | obj kvs =>
      obtain ⟨kvs', rfl, he⟩ := fixType_obj_inv h
      rw [getDefinitions] at hg
      cases hv : lookupKey kvs "definitions" with
      | none =>
          have hn : lookupKey kvs' "definitions" = none := by
            rw [lookupKey_eq_none_iff] at hv ⊢
            rw [fixTypeEntries_keys he]
            exact hv
          exact ⟨[], by rw [getDefinitions, hn]⟩
      | some v =>
          rw [hv] at hg
          cases v with
          | obj defs0 =>
              obtain ⟨v', c', hl', hfv⟩ :=
                lookup_fixTypeEntries he "definitions" (by decide) _ hv
              obtain ⟨defs2, rfl, -⟩ := fixType_obj_inv hfv
              exact ⟨defs2, by rw [getDefinitions, hl']⟩
          | null => simp at hg
          | bool b => simp at hg
          | num m => simp at hg
          | str s => simp at hg
          | arr xs => simp at hg
  | null => simp [getDefinitions] at hg
  | bool b => simp [getDefinitions] at hg
  | num m => simp [getDefinitions] at hg
  | str s => simp [getDefinitions] at hg
  | arr xs => simp [getDefinitions] at hg

/-- C1 (amended): for a detected duplicate pair `(d, p)`, after the pipeline
succeeds, (i) `d` is no longer a key of the output's `definitions`; (ii) no
reference value in the output equals `#/definitions/<d>`; and (iii) every
input `$ref` node whose value equalled `#/definitions/<d>` either equals
`#/definitions/<p>` after the duplicate-processing stage or has been removed
together with a pruned definition (its path no longer resolves).  The original
claim's third conjunct, without the removal alternative, is false: see the
counterexample, where the only reference to the dotted name sits inside the
dotted definition's own schema and is deleted by the pruner.  (Nodes may also
be relocated afterwards by type normalization, which can drop elements of
replaced `type` arrays, so (iii) is stated on the loop result; (i) and (ii)
hold for the final output.) -/
theorem duplicate_pair_reference_integrity
    (spec : Json) (defs : List (String × Json)) (d p : String)
    (s1 out : Json) (log : List String) (c : Nat) (P : List PathElem)
    (hdefs : getDefinitions spec = .ok defs)
    (hmem : (d, p) ∈ find_duplicate_schemas defs)
    (hloop : processLoop spec (find_duplicate_schemas defs) = .ok (s1, log))
    (hfix : fix_type_arrays s1 = .ok (out, c))
    (hlast : P.getLast? = some (PathElem.key "$ref"))
    (hpath : getPath spec P = some (.str (refStr d))) :
    fix_openapi_duplicates spec = .ok (out, log, c) ∧
      d ∉ defsKeys out ∧
      countExactRefs out d = 0 ∧
      (getPath s1 P = some (.str (refStr p)) ∨ getPath s1 P = none) := by
  have props := find_pairs_props hmem
  have hvalid1 : ∀ pr ∈ find_duplicate_schemas defs,
      hasDot pr.1 = true ∧ pr.2 = removeDots pr.1 := by
    intro pr hpr
    obtain ⟨d0, p0⟩ := pr
    obtain ⟨h1, -, -, -, h5⟩ := find_pairs_props hpr
    exact ⟨h1, h5⟩
  have hvalid2 : ∀ pr ∈ find_duplicate_schemas defs, hasDot pr.2 = false := by
    intro pr hpr
    obtain ⟨d0, p0⟩ := pr
    exact (find_pairs_props hpr).2.1
  refine ⟨?_, ?_, ?_, ?_⟩
  · rw [fix_openapi_duplicates, hdefs]
    simp only [Bind.bind, Except.bind, hloop, hfix]
  · rw [defsKeys_fixType hfix]
    exact loop_dotted_removed hmem hloop
  · have hz1 : countExactRefs s1 d = 0 :=
      loop_norefs hmem props.1 hvalid2 hloop
    have hle := countRefs_fixType_le s1 out c d hfix
    omega
  · exact loop_dotted_ref P hmem hvalid1 hlast hpath hloop

/-- Witness for C1 at `exDoc`: the pair `(A.B, AB)` is detected, the pipeline
succeeds, `A.B` is gone from `definitions`, no reference to it remains, and
the reference under `paths.$ref` now points to `AB`. -/
theorem duplicate_pair_reference_integrity_witness :
    fix_openapi_duplicates exDoc =
        .ok (Json.obj
              [("definitions", Json.obj [("AB", Json.obj [])]),
               ("paths", Json.obj [("$ref", Json.str "#/definitions/AB")])],
             ["Processing: A.B vs AB", "  A.B: 1 references",
              "  AB: 0 references", "  Removed A.B, keeping AB",
              "  Updated all references from A.B to AB"], 0) ∧
      "A.B" ∉ defsKeys (Json.obj
        [("definitions", Json.obj [("AB", Json.obj [])]),
         ("paths", Json.obj [("$ref", Json.str "#/definitions/AB")])]) ∧
      countExactRefs (Json.obj
        [("definitions", Json.obj [("AB", Json.obj [])]),
         ("paths", Json.obj [("$ref", Json.str "#/definitions/AB")])]) "A.B" = 0 ∧
      (getPath (Json.obj
          [("definitions", Json.obj [("AB", Json.obj [])]),
           ("paths", Json.obj [("$ref", Json.str "#/definitions/AB")])])
          [PathElem.key "paths", PathElem.key "$ref"] =
            some (.str (refStr "AB")) ∨
        getPath (Json.obj
          [("definitions", Json.obj [("AB", Json.obj [])]),
           ("paths", Json.obj [("$ref", Json.str "#/definitions/AB")])])
          [PathElem.key "paths", PathElem.key "$ref"] = none) :=
  duplicate_pair_reference_integrity exDoc
    [("A.B", Json.obj []), ("AB", Json.obj [])] "A.B" "AB"
    (Json.obj
      [("definitions", Json.obj [("AB", Json.obj [])]),
       ("paths", Json.obj [("$ref", Json.str "#/definitions/AB")])])
    (Json.obj
      [("definitions", Json.obj [("AB", Json.obj [])]),
       ("paths", Json.obj [("$ref", Json.str "#/definitions/AB")])])
    ["Processing: A.B vs AB", "  A.B: 1 references",
     "  AB: 0 references", "  Removed A.B, keeping AB",
     "  Updated all references from A.B to AB"] 0
    [PathElem.key "paths", PathElem.key "$ref"]
    (by decide) (by decide) (by decide) (by decide) (by decide) (by decide)

/-- Counterexample to C1 as stated: in `exSelfRef` the only reference equal to
`#/definitions/A.B` sits inside the schema of `A.B` itself; processing deletes
that schema, so after the run the reference node is gone — its path resolves
to nothing, and in particular it does not equal `#/definitions/AB`. -/
theorem duplicate_pair_reference_integrity_counterexample :
    getPath exSelfRef
        [PathElem.key "definitions", PathElem.key "A.B", PathElem.key "$ref"] =
      some (.str (refStr "A.B")) ∧
    ("A.B", "AB") ∈ find_duplicate_schemas
      [("A.B", Json.obj [("$ref", Json.str "#/definitions/A.B")]),
       ("AB", Json.obj [])] ∧
    fix_openapi_duplicates exSelfRef =
      .ok (Json.obj [("definitions", Json.obj [("AB", Json.obj [])])],
           ["Processing: A.B vs AB", "  A.B: 1 references",
            "  AB: 0 references", "  Removed A.B, keeping AB",
            "  Updated all references from A.B to AB"], 0) ∧
    getPath (Json.obj [("definitions", Json.obj [("AB", Json.obj [])])])
        [PathElem.key "definitions", PathElem.key "A.B", PathElem.key "$ref"] =
      none := by
  refine ⟨by decide, by decide, by decide, by decide⟩

/-- C5: on a document whose sequence-valued `type` fields are all non-empty
sequences of scalars, a successful pipeline run is idempotent: the Duplicate
Detector returns the empty sequence on the output's `definitions`, and a
second full run leaves the document unchanged with zero type-array fixes (and
an empty loop log). -/
theorem pipeline_idempotent
    (spec out : Json) (log : List String) (c : Nat)
    (hg : GoodTypes spec = true)
    (h : fix_openapi_duplicates spec = .ok (out, log, c)) :
    (∀ defsOut, getDefinitions out = .ok defsOut →
      find_duplicate_schemas defsOut = []) ∧
    fix_openapi_duplicates out = .ok (out, [], 0) := by
  obtain ⟨defs, s1, hdefs, hloop, hfix⟩ := pipeline_ok_inv h
  have hg1 : GoodTypes s1 = true := loop_GoodTypes hg hloop
  obtain ⟨ho, hc⟩ : out = typeNormalizerSpec s1 ∧ c = countTypeArrays s1 := by
    have hh := hfix.symm.trans (fix_type_arrays_spec s1 hg1)
    simp only [Except.ok.injEq, Prod.mk.injEq] at hh
    exact hh
  have hnoTL : hasTypeList out = false := by
    rw [ho]
    exact no_typeList_typeNorm s1 hg1
  have hid : fix_type_arrays out = .ok (out, 0) :=
    fixType_id_of_no_typeList out hnoTL
  have hdet : ∀ defsOut, getDefinitions out = .ok defsOut →
      find_duplicate_schemas defsOut = [] := by
    intro defsOut hgo
    rw [List.eq_nil_iff_forall_not_mem]
    rintro ⟨k, q⟩ hkq
    obtain ⟨hk1, hk2, hk3, hk4, hk5⟩ := find_pairs_props hkq
    have hkeysOut : defsKeys out = keysOf defsOut := getDefinitions_defsKeys hgo
    have hkeysIn : defsKeys spec = keysOf defs := getDefinitions_defsKeys hdefs
    have hs1out : defsKeys out = defsKeys s1 := defsKeys_fixType hfix
    have hkmem : k ∈ defsKeys s1 := by
      rw [← hs1out, hkeysOut]
      exact hk3
    have hqmem : q ∈ defsKeys s1 := by
      rw [← hs1out, hkeysOut]
      exact hk4
    have hkin : k ∈ keysOf defs := by
      rw [← hkeysIn]
      exact loop_keys_sub hloop k hkmem
    have hqin : q ∈ keysOf defs := by
      rw [← hkeysIn]
      exact loop_keys_sub hloop q hqmem
    have hpair : (k, q) ∈ find_duplicate_schemas defs := by
      rw [mem_find_duplicate_schemas]
      refine ⟨hkin, hk1, ?_, hk5⟩
      rw [← hk5]
      exact (contains_keys_iff _ _).mpr hqin
    exact absurd hkmem (loop_dotted_removed hpair hloop)
  refine ⟨hdet, ?_⟩
  obtain ⟨defs1, hg2⟩ := loop_getDefinitions hdefs hloop
  obtain ⟨defsOut, hgo⟩ := fixType_getDefinitions hg2 hfix
  rw [fix_openapi_duplicates, hgo]
  simp only [Bind.bind, Except.bind, hdet defsOut hgo, processLoop, hid]

/-- Witness for C5 at `exDoc`: after the first run the detector finds nothing
and a second run returns the output unchanged with zero fixes. -/
theorem pipeline_idempotent_witness :
    find_duplicate_schemas [("AB", Json.obj [])] = [] ∧
      fix_openapi_duplicates
          (Json.obj
            [("definitions", Json.obj [("AB", Json.obj [])]),
             ("paths", Json.obj [("$ref", Json.str "#/definitions/AB")])]) =
        .ok (Json.obj
              [("definitions", Json.obj [("AB", Json.obj [])]),
               ("paths", Json.obj [("$ref", Json.str "#/definitions/AB")])],
             [], 0) :=
  ⟨(pipeline_idempotent exDoc
      (Json.obj
        [("definitions", Json.obj [("AB", Json.obj [])]),
         ("paths", Json.obj [("$ref", Json.str "#/definitions/AB")])])
      ["Processing: A.B vs AB", "  A.B: 1 references",
       "  AB: 0 references", "  Removed A.B, keeping AB",
       "  Updated all references from A.B to AB"] 0
      (by decide) (by decide)).1 [("AB", Json.obj [])] (by decide),
   (pipeline_idempotent exDoc
      (Json.obj
        [("definitions", Json.obj [("AB", Json.obj [])]),
         ("paths", Json.obj [("$ref", Json.str "#/definitions/AB")])])
      ["Processing: A.B vs AB", "  A.B: 1 references",
       "  AB: 0 references", "  Removed A.B, keeping AB",
       "  Updated all references from A.B to AB"] 0
      (by decide) (by decide)).2⟩

/-- C6 (amended): for every detected duplicate pair the definition that is
kept is always the plain (non-dotted) name — the plain name is still a key of
the output's `definitions` and the dotted name is not.  The Completeness
Comparator (`choose_better_schema`, with `compare_schemas`) is defined in the
source but never invoked by `fix_openapi_duplicates`, so its output cannot
alter that choice; the original claim's assertion that its output "is
computed and reported during processing" is refuted by the counterexample,
whose complete loop log contains no description-count line. -/
theorem plain_name_always_kept
    (spec : Json) (defs : List (String × Json)) (d p : String)
    (s1 out : Json) (log : List String) (c : Nat)
    (hdefs : getDefinitions spec = .ok defs)
    (hmem : (d, p) ∈ find_duplicate_schemas defs)
    (hloop : processLoop spec (find_duplicate_schemas defs) = .ok (s1, log))
    (hfix : fix_type_arrays s1 = .ok (out, c)) :
    p ∈ defsKeys out ∧ d ∉ defsKeys out := by
  have props := find_pairs_props hmem
  have hkeysIn : defsKeys spec = keysOf defs := getDefinitions_defsKeys hdefs
  have hpmem : p ∈ defsKeys spec := by
    rw [hkeysIn]
    exact props.2.2.2.1
  have hne : ∀ pr ∈ find_duplicate_schemas defs, p ≠ pr.1 := by
    intro pr hpr
    obtain ⟨d0, p0⟩ := pr
    exact Ne.symm (ne_of_dot d0 p (find_pairs_props hpr).1 props.2.1)
  have h1 : p ∈ defsKeys s1 := loop_keys_kept hne hpmem hloop
  rw [defsKeys_fixType hfix]
  exact ⟨h1, loop_dotted_removed hmem hloop⟩

/-- Witness for C6 at `exDoc`: `AB` is kept, `A.B` is removed. -/
theorem plain_name_always_kept_witness :
    "AB" ∈ defsKeys (Json.obj
        [("definitions", Json.obj [("AB", Json.obj [])]),
         ("paths", Json.obj [("$ref", Json.str "#/definitions/AB")])]) ∧
      "A.B" ∉ defsKeys (Json.obj
        [("definitions", Json.obj [("AB", Json.obj [])]),
         ("paths", Json.obj [("$ref", Json.str "#/definitions/AB")])]) :=
  plain_name_always_kept exDoc
    [("A.B", Json.obj []), ("AB", Json.obj [])] "A.B" "AB"
    (Json.obj
      [("definitions", Json.obj [("AB", Json.obj [])]),
       ("paths", Json.obj [("$ref", Json.str "#/definitions/AB")])])
    (Json.obj
      [("definitions", Json.obj [("AB", Json.obj [])]),
       ("paths", Json.obj [("$ref", Json.str "#/definitions/AB")])])
    ["Processing: A.B vs AB", "  A.B: 1 references",
     "  AB: 0 references", "  Removed A.B, keeping AB",
     "  Updated all references from A.B to AB"] 0
    (by decide) (by decide) (by decide) (by decide)

/-- Counterexample to C6 as stated: processing `exDoc` emits exactly the five
lines below — the complete model of the loop's output — and none of them
mentions a description count, so the Completeness Comparator's output is not
reported during processing (indeed `choose_better_schema` is never called by
`fix_openapi_duplicates`). -/
theorem comparator_not_reported_counterexample :
    fix_openapi_duplicates exDoc =
        .ok (Json.obj
              [("definitions", Json.obj [("AB", Json.obj [])]),
               ("paths", Json.obj [("$ref", Json.str "#/definitions/AB")])],
             ["Processing: A.B vs AB", "  A.B: 1 references",
              "  AB: 0 references", "  Removed A.B, keeping AB",
              "  Updated all references from A.B to AB"], 0) ∧
      (["Processing: A.B vs AB", "  A.B: 1 references",
        "  AB: 0 references", "  Removed A.B, keeping AB",
        "  Updated all references from A.B to AB"].all
          (fun line => countSub line "descriptions" == 0)) = true := by
  refine ⟨by decide, by decide⟩

/-- C3 (amended): on documents where every sequence-valued `type` is a
non-empty sequence of scalars (the shape the spec's contract assumes, §4.4,
plus non-emptiness for totality), `fix_type_arrays` computes exactly the
spec's Type Normalizer — every such `type` value is replaced by the scalar of
fixed priority (`"string"`, else `"number"`, else `"integer"`, else the first
element), scalar `type` values are untouched, the rest of the document is
preserved, and the returned count is the number of replacements.  The claim
as stated, for arbitrary sequence values, is false: when the first element is
itself a sequence the fallback stores a non-scalar (see the
counterexample). -/
theorem type_normalizer_correct (j : Json) (hg : GoodTypes j = true) :
    fix_type_arrays j = .ok (typeNormalizerSpec j, countTypeArrays j) :=
  fix_type_arrays_spec j hg

/-- Witness for C3 at `exGoodTypes`: `["integer","number"] ↦ "number"`,
`["boolean"] ↦ "boolean"` (fallback), the scalar `type: "object"` untouched,
count 2. -/
theorem type_normalizer_correct_witness :
    fix_type_arrays exGoodTypes =
      .ok (typeNormalizerSpec exGoodTypes, countTypeArrays exGoodTypes) :=
  type_normalizer_correct exGoodTypes (by decide)

/-- Counterexample to C3 as stated: in `exNestedType` the `type` value is the
sequence `[["x"]]`; the fallback replaces it by its first element `["x"]`,
which is a sequence, not "a single scalar" — the output still has a
sequence-valued `type`. -/
theorem type_normalizer_correct_counterexample :
    fix_type_arrays exNestedType =
        .ok (Json.obj [("type", Json.arr [Json.str "x"])], 1) ∧
      getPath (Json.obj [("type", Json.arr [Json.str "x"])])
          [PathElem.key "type"] = some (Json.arr [Json.str "x"]) ∧
      (Json.arr [Json.str "x"]).isScalar = false := by
  refine ⟨by decide, by decide, by decide⟩

/-- C7: if a duplicate pair's dotted name is absent from `definitions` when
the pruner runs, the iteration does not raise: it returns successfully, its
log ends with the warning line, the document it passes on is exactly the
rewritten (un-pruned) document — `definitions` is unchanged by the prune
step — and the loop continues with the remaining pairs, completing whenever
the rest does. -/
theorem deletion_safety
    (spec : Json) (d p : String) (kvs defs : List (String × Json))
    (rest : List (String × String))
    (hs : fix_schema_references spec d p = .obj kvs)
    (hd : lookupKey kvs "definitions" = some (.obj defs))
    (habs : (keysOf defs).contains d = false) :
    processPair spec (d, p) =
        .ok (.obj kvs,
             pairLogHead spec d p ++
               ["  Warning: " ++ d ++ " not found in definitions!"]) ∧
      processLoop spec ((d, p) :: rest) =
        (processLoop (.obj kvs) rest).map
          (fun r => (r.1,
            (pairLogHead spec d p ++
              ["  Warning: " ++ d ++ " not found in definitions!"]) ++ r.2)) := by
  have h1 := processPair_warn hs hd habs
  refine ⟨h1, ?_⟩
  rw [processLoop]
  rw [h1]
  cases hr : processLoop (.obj kvs) rest with
  | ok r =>
      obtain ⟨s2, l2⟩ := r
      simp [Bind.bind, Except.bind, Except.map, hr]
  | error e => simp [Bind.bind, Except.bind, Except.map, hr]

/-- Witness for C7 at `exPrefix` with the (hypothetical) pair `(A.B, AB)`:
the rewrite leaves the document unchanged, `A.B` is not among the definition
keys, and the iteration warns and passes the document through. -/
theorem deletion_safety_witness :
    processPair exPrefix ("A.B", "AB") =
        .ok (.obj
              [("definitions", Json.obj [("Foo", Json.obj []), ("FooBar", Json.obj [])]),
               ("paths", Json.obj [("p", Json.obj [("$ref", Json.str "#/definitions/FooBar")])])],
             pairLogHead exPrefix "A.B" "AB" ++
               ["  Warning: " ++ "A.B" ++ " not found in definitions!"]) ∧
      processLoop exPrefix [("A.B", "AB")] =
        (processLoop (.obj
            [("definitions", Json.obj [("Foo", Json.obj []), ("FooBar", Json.obj [])]),
             ("paths", Json.obj [("p", Json.obj [("$ref", Json.str "#/definitions/FooBar")])])]) []).map
          (fun r => (r.1,
            (pairLogHead exPrefix "A.B" "AB" ++
              ["  Warning: " ++ "A.B" ++ " not found in definitions!"]) ++ r.2)) :=
  deletion_safety exPrefix "A.B" "AB"
    [("definitions", Json.obj [("Foo", Json.obj []), ("FooBar", Json.obj [])]),
     ("paths", Json.obj [("p", Json.obj [("$ref", Json.str "#/definitions/FooBar")])])]
    [("Foo", Json.obj []), ("FooBar", Json.obj [])] []
    (by decide) (by decide) (by decide)

mutual
theorem normalize_eq_of_equpto : ∀ {s t : Json}, EqUpToDescription s t →
    normalize_schema s = normalize_schema t
  | _, _, .null => rfl
  | _, _, .bool _ => rfl
  | _, _, .num _ => rfl
  | _, _, .str _ => rfl
  | _, _, .arr h => by
      rw [normalize_schema, normalize_schema, normalizeList_eq_of_equpto h]
  | _, _, .obj h => by
      rw [normalize_schema, normalize_schema, normalizeEntries_eq_of_equpto h]
theorem normalizeList_eq_of_equpto : ∀ {xs ys : List Json},
    EqListUpToDescription xs ys → normalizeList xs = normalizeList ys
  | _, _, .nil => rfl
  | _, _, .cons hx hrest => by
      rw [normalizeList, normalizeList, normalize_eq_of_equpto hx,
        normalizeList_eq_of_equpto hrest]
theorem normalizeEntries_eq_of_equpto : ∀ {kvs lws : List (String × Json)},
    EqEntriesUpToDescription kvs lws → normalizeEntries kvs = normalizeEntries lws
  | _, _, .nil => rfl
  | _, _, .consDesc hrest => by
      rw [normalizeEntries, normalizeEntries, if_pos rfl, if_pos rfl]
      exact normalizeEntries_eq_of_equpto hrest
  | _, _, .cons hk hv hrest => by
      rw [normalizeEntries, normalizeEntries, if_neg hk, if_neg hk,
        normalize_eq_of_equpto hv, normalizeEntries_eq_of_equpto hrest]
end

/-- C8: any two schemas that are identical except for the values under
`description` keys, at any depth and including inside nested sequences,
compare as structurally equivalent: `compare_schemas` strips every
`description` key recursively (`normalize_schema`) before comparing, so it
returns `true` whenever the stripped forms coincide. -/
theorem compare_schemas_ignores_descriptions (s1 s2 : Json)
    (h : EqUpToDescription s1 s2) : compare_schemas s1 s2 = true := by
  rw [compare_schemas, normalize_eq_of_equpto h]
  simp

/-- Witness for C8: two schemas differing only in a top-level description and
in a description nested inside a sequence compare as equivalent. -/
theorem compare_schemas_ignores_descriptions_witness :
    compare_schemas
        (Json.obj
          [("description", Json.str "a"),
           ("items", Json.arr
             [Json.obj [("description", Json.str "x"),
                        ("type", Json.str "string")]])])
        (Json.obj
          [("description", Json.str "b"),
           ("items", Json.arr
             [Json.obj [("description", Json.str "y"),
                        ("type", Json.str "string")]])]) = true :=
  compare_schemas_ignores_descriptions _ _
    (EqUpToDescription.obj
      (EqEntriesUpToDescription.consDesc
        (EqEntriesUpToDescription.cons (by decide)
          (EqUpToDescription.arr
            (EqListUpToDescription.cons
              (EqUpToDescription.obj
                (EqEntriesUpToDescription.consDesc
                  (EqEntriesUpToDescription.cons (by decide)
                    (EqUpToDescription.str "string")
                    EqEntriesUpToDescription.nil)))
              EqListUpToDescription.nil))
          EqEntriesUpToDescription.nil)))

/-- C9: `count_references` serializes the whole document with `json.dumps`
and counts occurrences of the substring `#/definitions/<name>`; on `exPrefix`
this counts the reference to `FooBar` as a reference to `Foo` (whose pattern
is a proper prefix of it), reporting 1 while the number of `$ref` nodes whose
value exactly equals `#/definitions/Foo` is 0 — a strict overcount. -/
theorem count_references_substring_overcount :
    count_references exPrefix "Foo" = 1 ∧
      countExactRefs exPrefix "Foo" = 0 ∧
      countExactRefs exPrefix "Foo" < count_references exPrefix "Foo" := by
  refine ⟨by decide, by decide, by decide⟩

/-- C10 (amended): `value[0]` on an empty `type` array makes the normalizer
partial — (1) whenever the walk of `fix_type_arrays` reaches a dict entry
`type ↦ []` the normalizer fails with an `IndexError`; (2) on a document with
no duplicate pairs this aborts the whole pipeline (no output written); and
(3) totality holds under the precondition that every sequence-valued `type`
is a non-empty sequence of scalars.  The original claim quantified over any
document *containing* such a mapping; that is false when the empty `type`
array is nested inside another sequence-valued `type`, whose elements the
walk drops unvisited — see the counterexample. -/
theorem type_normalizer_partial_on_empty :
    (∀ j : Json, hitsEmptyTypeArray j = true →
      exceptIsOk (fix_type_arrays j) = false) ∧
    (∀ (spec : Json) (defs : List (String × Json)),
      getDefinitions spec = .ok defs → find_duplicate_schemas defs = [] →
      hitsEmptyTypeArray spec = true →
      exceptIsOk (fix_openapi_duplicates spec) = false) ∧
    (∀ j : Json, GoodTypes j = true → exceptIsOk (fix_type_arrays j) = true) := by
  refine ⟨fun j h => fixType_err_of_hitsEmpty j h, ?_, ?_⟩
  · intro spec defs hdefs hnodup hhits
    rw [fix_openapi_duplicates, hdefs]
    have herr := fixType_err_of_hitsEmpty spec hhits
    cases hfe : fix_type_arrays spec with
    | ok pr =>
        rw [hfe] at herr
        simp [exceptIsOk] at herr
    | error e =>
        simp [Bind.bind, Except.bind, hnodup, processLoop, hfe, exceptIsOk]
  · intro j hg
    rw [fix_type_arrays_spec j hg]
    rfl

/-- Witness for C10: an empty `type` array in walk position makes
`fix_type_arrays` fail (`exEmptyType`), the same situation aborts the whole
pipeline on a duplicate-free document (`exEmptyTypeDoc`), and a well-formed
document (`exGoodTypes`) is normalized successfully. -/
theorem type_normalizer_partial_on_empty_witness :
    exceptIsOk (fix_type_arrays exEmptyType) = false ∧
      exceptIsOk (fix_openapi_duplicates exEmptyTypeDoc) = false ∧
      exceptIsOk (fix_type_arrays exGoodTypes) = true :=
  ⟨type_normalizer_partial_on_empty.1 exEmptyType (by decide),
   type_normalizer_partial_on_empty.2.1 exEmptyTypeDoc
     [("A", Json.obj [])] (by decide) (by decide) (by decide),
   type_normalizer_partial_on_empty.2.2 exGoodTypes (by decide)⟩

/-- Counterexample to C10 as stated: `exShadowedEmpty` contains a mapping
whose `type` is the empty sequence (at `type[0].type`), yet the pipeline does
not abort — the enclosing `type` array is replaced by its first element
without its contents ever being visited, and the run succeeds. -/
theorem type_normalizer_partial_on_empty_counterexample :
    getPath exShadowedEmpty
        [PathElem.key "type", PathElem.idx 0, PathElem.key "type"] =
      some (Json.arr []) ∧
    fix_type_arrays exShadowedEmpty =
      .ok (Json.obj [("type", Json.obj [("type", Json.arr [])])], 1) ∧
    fix_openapi_duplicates exShadowedEmpty =
      .ok (Json.obj [("type", Json.obj [("type", Json.arr [])])], [], 1) := by
  refine ⟨by decide, by decide, by decide⟩
